import Mathlib

set_option maxRecDepth 100000

namespace Moore

/-! Shallow embedding of the grammar-transformation engine in
`src/svlog/syntax/pargen/factor.rs`: the symbol/production data model, the
grammar context, FIRST-set computation, left-recursion elimination
(`remove_left_recursion`) and the conflict-detection / left-factoring
pipeline (`left_factor`, `has_conflict`, `handle_conflict`, `disambiguate`).

The grammar context itself (`context.rs`) is not among the supplied sources;
its operations are modelled from the specification (see the individual doc
comments).  Machine loops that the source expresses as `while`/recursion are
fuel-indexed; a `none` result means the fuel was exhausted, so divergence of
the source corresponds to the function returning `none` for every fuel. -/

/-- Terminal token-class identifier: an opaque, comparable, totally ordered
value in the source; modelled as a natural number. -/
abbrev Term := Nat

/-- Nonterminal identifier.  Two kinds by origin: named (declared by the
grammar author) and anonymous (synthesized from the context's counter). -/
inductive Nonterm where
  | named : Nat → Nonterm
  | anon : Nat → Nonterm
deriving DecidableEq

/-- Grammar symbol: tagged union of terminal and nonterminal. -/
inductive Symbol where
  | term : Term → Symbol
  | nonterm : Nonterm → Symbol
deriving DecidableEq

/-- One production alternative: the owning nonterminal and its ordered symbol
sequence.  Two productions are equal iff owner and sequence are equal. -/
structure Production where
  nt : Nonterm
  syms : List Symbol
deriving DecidableEq

/-- A symbol sequence (`&[Symbol]` / `Vec<Symbol>` in the source). -/
abbrev SymSeq := List Symbol

/-- Set insertion for the source's `BTreeSet`/`HashSet` collections, modelled
on duplicate-free lists.  The comparator of the source's ordered sets lives in
the context module, which is not among the supplied sources, so set iteration
order is modelled as insertion order (deterministic, as the spec requires). -/
def sinsert {α : Type} [DecidableEq α] (x : α) (l : List α) : List α :=
  if x ∈ l then l else l ++ [x]

/-- Set union accumulating the elements of `xs` into `l` (`seen.extend(..)`). -/
def sunion {α : Type} [DecidableEq α] (l : List α) (xs : List α) : List α :=
  xs.foldl (fun acc x => sinsert x acc) l

/-- Modelled from the spec: the Grammar Context of `context.rs` is not among
the supplied sources.  Per §3 it is the mutable store mapping each nonterminal
to the ordered set of its productions, plus the monotonically increasing
counter from which anonymous nonterminals are allocated.  It is modelled as a
duplicate-free production list (the union of all per-nonterminal sets)
together with the counter. -/
structure Context where
  prodList : List Production
  counter : Nat
deriving DecidableEq

/-- The ordered set of productions owned by `nt` (`ctx.prods[&nt]`; a missing
key is modelled as the empty set). -/
def Context.prodsOf (ctx : Context) (nt : Nonterm) : List Production :=
  ctx.prodList.filter (fun p => p.nt = nt)

/-- Modelled from the spec: `add_production(nt, syms)` inserts a new
production with owner `nt` (§3). -/
def Context.add_production (ctx : Context) (nt : Nonterm) (syms : List Symbol) :
    Context :=
  { ctx with prodList := sinsert ⟨nt, syms⟩ ctx.prodList }

/-- Modelled from the spec: `remove_production(p)` removes a production by
value (§3). -/
def Context.remove_production (ctx : Context) (p : Production) : Context :=
  { ctx with prodList := ctx.prodList.erase p }

/-- Modelled from the spec: `anonymous_nonterm()` allocates and returns a
fresh, never-before-seen nonterminal from the counter (§3). -/
def Context.anonymous_nonterm (ctx : Context) : Nonterm × Context :=
  (Nonterm.anon ctx.counter, { ctx with counter := ctx.counter + 1 })

/-- The keys of the nonterminal-to-productions mapping, in iteration order. -/
def Context.keys (ctx : Context) : List Nonterm :=
  ctx.prodList.foldl (fun acc p => sinsert p.nt acc) []

/-- The left-recursive productions among `ps`: those whose first symbol is
exactly the owning nonterminal
(`p.syms.iter().next() == Some(&Symbol::Nonterm(p.nt))`). -/
def leftRecProds (ps : List Production) : List Production :=
  ps.filter (fun p => p.syms.head? = some (Symbol.nonterm p.nt))

/-- One iteration of the rewrite loop of `remove_left_recursion` for a single
left-recursive nonterminal `pair.1` with left-recursive production set
`pair.2`: allocate a fresh `aux`; for each left-recursive production
`nt → nt α` add `aux → α aux` and remove the original; add `aux → ε`; then
for each remaining production `nt → β` (a snapshot clone, as in the source)
add `nt → β aux` and remove `nt → β`. -/
def rlrStep (ctx : Context) (pair : Nonterm × List Production) : Context :=
  let nt := pair.1
  let aux := (Context.anonymous_nonterm ctx).1
  let ctx1 := (Context.anonymous_nonterm ctx).2
  let ctx2 := pair.2.foldl
    (fun c p =>
      (c.add_production aux (p.syms.drop 1 ++ [Symbol.nonterm aux])).remove_production p)
    ctx1
  let ctx3 := ctx2.add_production aux []
  (ctx3.prodsOf nt).foldl
    (fun c p =>
      (c.add_production nt (p.syms ++ [Symbol.nonterm aux])).remove_production p)
    ctx3

/-- The list of left-recursive nonterminals paired with their left-recursive
production sets (`rec` in the source), collected before any rewriting. -/
def recEntries (ctx : Context) : List (Nonterm × List Production) :=
  ctx.keys.filterMap (fun nt =>
    let lr := leftRecProds (ctx.prodsOf nt)
    if lr.isEmpty then none else some (nt, lr))

/-- Remove immediate left-recursion from the grammar: first collect, per
nonterminal, its left-recursive productions; then rewrite each nonterminal
that has any. -/
def remove_left_recursion (ctx : Context) : Context :=
  (recEntries ctx).foldl rlrStep ctx

/-- The nonterminals rewritten by `remove_left_recursion`: the keys with at
least one left-recursive production. -/
def rewrittenNonterms (ctx : Context) : List Nonterm :=
  (recEntries ctx).map Prod.fst

/-- Modelled from the spec: the recursive worker of `first_set_of_symbols`
(§4.2 of the spec; the implementation lives in the missing `context.rs`).
An empty sequence yields the empty set; a sequence starting with a terminal
yields that terminal; a sequence starting with a nonterminal yields the union
over that nonterminal's productions, guarding against left-recursive grammars
by treating a nonterminal already being expanded as contributing the empty
set.  The fuel only bounds the nesting of nonterminal expansions, which the
visited list already caps at the number of mapping keys, so the chosen fuel
is never exhausted. -/
def firstGo (ctx : Context) : Nat → List Nonterm → List Symbol → List Term
  | _, _, [] => []
  | _, _, Symbol.term t :: _ => [t]
  | 0, _, Symbol.nonterm _ :: _ => []
  | fuel + 1, visited, Symbol.nonterm nt :: _ =>
    if nt ∈ visited then []
    else
      (ctx.prodsOf nt).foldl
        (fun acc p => sunion acc (firstGo ctx fuel (nt :: visited) p.syms)) []

/-- Modelled from the spec: `first_set_of_symbols(seq)` (§4.2). -/
def Context.first_set_of_symbols (ctx : Context) (syms : List Symbol) : List Term :=
  firstGo ctx (ctx.keys.length + 1) [] syms

/-- The worker loop of `has_conflict`: walk the productions, accumulating the
terminals of their FIRST sets into `seen`; report a conflict as soon as a
production's FIRST set meets a terminal already seen.  (Within a single
production's FIRST set no terminal repeats, since it is a set, so the failing
`seen.insert(s)` of the source is exactly a hit on an earlier production.) -/
def hcGo (ctx : Context) : List Production → List Term → Bool
  | [], _ => false
  | p :: rest, seen =>
    let f := ctx.first_set_of_symbols p.syms
    if f.any (fun t => t ∈ seen) then true
    else hcGo ctx rest (sunion seen f)

/-- Conflict detection: do two productions of `ps` share a FIRST terminal? -/
def has_conflict (ctx : Context) (ps : List Production) : Bool :=
  hcGo ctx ps []

/-- A cycle warning, carrying the core segments it was reported for. -/
abbrev Warning := List SymSeq

/-- Outcome of a possibly-panicking computation: `panic` models a Rust panic
(here: a slice index out of bounds in `disambiguate`). -/
inductive FRes (α : Type) where
  | panic : FRes α
  | ok : α → FRes α
deriving DecidableEq

/-- Deduplicating collection of sequences into a set (`collect` into a
`BTreeSet`). -/
def dedupSeqs (l : List SymSeq) : List SymSeq :=
  l.foldl (fun acc s => sinsert s acc) []

/-- Processing of one `lead` inside the expansion loop of `disambiguate`
(lines 135–155 of `factor.rs`): an empty lead is skipped (`continue`); a lead
whose first symbol is a nonterminal is replaced by one expansion per
production of that nonterminal, inserted into the next working set; any other
lead is inserted into `done`.  The accumulator is `(next leads, done)`. -/
def expandOne (ctx : Context) (acc : List SymSeq × List SymSeq) (lead : SymSeq) :
    List SymSeq × List SymSeq :=
  match lead with
  | [] => acc
  | Symbol.nonterm nt :: rest =>
    ((ctx.prodsOf nt).foldl (fun ls p => sinsert (p.syms ++ rest) ls) acc.1, acc.2)
  | _ => (acc.1, sinsert lead acc.2)

/-- One round of the expansion loop: process a snapshot of the working set
(`std::mem::take(&mut leads)`), producing the next working set and the grown
`done`. -/
def expandRound (ctx : Context) (leads done : List SymSeq) :
    List SymSeq × List SymSeq :=
  leads.foldl (expandOne ctx) ([], done)

/-- The `while !leads.is_empty()` expansion loop of `disambiguate`,
fuel-indexed: `none` means the fuel ran out (the source loops forever when the
working set never empties). -/
def expandLoop (ctx : Context) : Nat → List SymSeq → List SymSeq → Option (List SymSeq)
  | _, [], done => some done
  | 0, _ :: _, _ => none
  | fuel + 1, l :: ls, done =>
    let r := expandRound ctx (l :: ls) done
    expandLoop ctx fuel r.1 r.2

/-- Does every sequence of `done` carry the same symbol at position `k`?
This is the singleton-set test of the common-prefix loop: the source collects
`syms.iter().skip(k).next()` over all sequences into a set and proceeds only
if that set is exactly one `Some` symbol. -/
def allSameAt (done : List SymSeq) (k : Nat) : Option Symbol :=
  match done with
  | [] => none
  | d :: rest =>
    match d.get? k with
    | none => none
    | some s => if rest.all (fun e => e.get? k = some s) then some s else none

/-- The common-prefix loop: keep extending the prefix while all sequences
agree on the next symbol.  The fuel is chosen below so that it is never
exhausted (the loop stops at the shortest sequence at the latest). -/
def cpGo (done : List SymSeq) : Nat → Nat → Nat
  | 0, k => k
  | fuel + 1, k =>
    match allSameAt done k with
    | some _ => cpGo done fuel (k + 1)
    | none => k

/-- The length of the longest sequence in `done`. -/
def maxLenOf (done : List SymSeq) : Nat :=
  done.foldl (fun m d => max m d.length) 0

/-- Length of the longest common prefix of all sequences in `done`. -/
def cpLen (done : List SymSeq) : Nat :=
  cpGo done (maxLenOf done + 1) 0

/-- Length of the longest common suffix of all sequences in `done`
(the source walks `syms.iter().rev()`, i.e. the reversed sequences). -/
def csLen (done : List SymSeq) : Nat :=
  cpGo (done.map List.reverse) (maxLenOf done + 1) 0

/-- The core-segment extraction `&d[pl .. d.len() - sl]` of one sequence.
Rust panics when `sl` underflows the length or when the slice start exceeds
its end; both panics are modelled as `none`. -/
def extractCore (pl sl : Nat) (d : SymSeq) : Option SymSeq :=
  if sl ≤ d.length ∧ pl ≤ d.length - sl then
    some ((d.take (d.length - sl)).drop pl)
  else none

/-- Core extraction over all of `done`; the first panicking slice aborts. -/
def extractCores (pl sl : Nat) : List SymSeq → Option (List SymSeq)
  | [] => some []
  | d :: rest =>
    match extractCore pl sl d with
    | none => none
    | some c =>
      match extractCores pl sl rest with
      | none => none
      | some cs => some (c :: cs)

/-- Result of one single-seed sweep of `handle_conflict`'s collision
clustering: the seed's group (`colliders`), the accumulated union of the
group's FIRST sets (`seen`) and the sequences put back into `todo`
(`leftover`). -/
structure SweepOut where
  colliders : List SymSeq
  seen : List Term
  leftover : List SymSeq
deriving DecidableEq

/-- Scanning of one unassigned sequence during a sweep (lines 95–110 of
`factor.rs`): if its FIRST set meets the running union `seen`, it joins the
group and grows the union; otherwise it goes back to `todo`. -/
def scanStep (ctx : Context) (acc : SweepOut) (s : SymSeq) : SweepOut :=
  if (ctx.first_set_of_symbols s).any (fun t => t ∈ acc.seen) then
    { colliders := acc.colliders ++ [s]
      seen := sunion acc.seen (ctx.first_set_of_symbols s)
      leftover := acc.leftover }
  else { acc with leftover := acc.leftover ++ [s] }

/-- One single-seed sweep: seed the group with `init` and its FIRST set, then
scan the remaining unassigned sequences once, in order. -/
def sweep (ctx : Context) (init : SymSeq) (rest : List SymSeq) : SweepOut :=
  rest.foldl (scanStep ctx) ⟨[init], ctx.first_set_of_symbols init, []⟩

mutual

/-- `handle_conflict(ctx, seqs, stack)`: drop the empty sequences, then run
single-seed sweeps until every sequence is assigned to a group, calling
`disambiguate` on each group.  (The source precomputes the FIRST map of
`todo`; that memoisation is performance-only for a pure function and the
model recomputes `first_set_of_symbols` at each use.)  Returns the recursion
stack and the collected cycle warnings; `none` means fuel exhaustion. -/
def hcF : Nat → Context → List SymSeq → List SymSeq →
    Option (FRes (List SymSeq × List Warning))
  | 0, _, _, _ => none
  | fuel + 1, ctx, seqs, stack =>
    seedLoop fuel ctx (seqs.filter (fun s => ¬ s.isEmpty)) stack

/-- The `while let Some(&init) = todo.iter().next()` loop of
`handle_conflict`: take the next seed, sweep, disambiguate the resulting
group, and continue on the leftover. -/
def seedLoop : Nat → Context → List SymSeq → List SymSeq →
    Option (FRes (List SymSeq × List Warning))
  | 0, _, _, _ => none
  | fuel + 1, ctx, todo, stack =>
    match todo with
    | [] => some (FRes.ok (stack, []))
    | init :: rest =>
      let sw := sweep ctx init rest
      match dsF fuel ctx sw.colliders stack with
      | none => none
      | some FRes.panic => some FRes.panic
      | some (FRes.ok (stack1, ws1)) =>
        match seedLoop fuel ctx sw.leftover stack1 with
        | none => none
        | some FRes.panic => some FRes.panic
        | some (FRes.ok (stack2, ws2)) => some (FRes.ok (stack2, ws1 ++ ws2))

/-- `disambiguate(ctx, seqs, stack)`: nothing to do for a single sequence;
otherwise fully expand leading nonterminals into the deduplicated set `done`;
stop if at most one distinct expansion remains; compute the common prefix and
suffix lengths and extract the core segments (which can panic, see
`extractCore`); if any core segment is already on the recursion stack, emit a
cycle warning and stop; otherwise push the segments, recurse through
`handle_conflict`, and pop them. -/
def dsF : Nat → Context → List SymSeq → List SymSeq →
    Option (FRes (List SymSeq × List Warning))
  | 0, _, _, _ => none
  | fuel + 1, ctx, seqs, stack =>
    if seqs.length = 1 then some (FRes.ok (stack, []))
    else
      match expandLoop ctx (fuel + 1) (dedupSeqs seqs) [] with
      | none => none
      | some done =>
        if done.length ≤ 1 then some (FRes.ok (stack, []))
        else
          let pl := cpLen done
          let sl := csLen done
          match extractCores pl sl done with
          | none => some FRes.panic
          | some cores =>
            let cset := dedupSeqs cores
            if cset.any (fun s => s ∈ stack) then some (FRes.ok (stack, [cset]))
            else
              match hcF fuel ctx cset (cset.foldl (fun st s => sinsert s st) stack) with
              | none => none
              | some FRes.panic => some FRes.panic
              | some (FRes.ok (stack1, ws)) =>
                some (FRes.ok (cset.foldl (fun st s => st.erase s) stack1, ws))

end

/-- The per-nonterminal loop of `left_factor`: for each key whose production
set has a conflict, run `handle_conflict` on its symbol sequences with a
fresh, empty recursion stack.  Only the collected warnings are returned: the
helpers take the context immutably, exactly as in the source, so there is no
context to thread. -/
def lfGo (fuel : Nat) (ctx : Context) : List Nonterm → Option (FRes (List Warning))
  | [] => some (FRes.ok [])
  | nt :: rest =>
    if has_conflict ctx (ctx.prodsOf nt) then
      match hcF fuel ctx ((ctx.prodsOf nt).map (fun p => p.syms)) [] with
      | none => none
      | some FRes.panic => some FRes.panic
      | some (FRes.ok (_, ws)) =>
        match lfGo fuel ctx rest with
        | none => none
        | some FRes.panic => some FRes.panic
        | some (FRes.ok ws2) => some (FRes.ok (ws ++ ws2))
    else lfGo fuel ctx rest

/-- `left_factor(ctx)`: walk the grammar's nonterminals and resolve the
conflicting ones.  The context reference handed back is the input context:
the source's helpers all take `&Context` and never mutate the grammar. -/
def left_factor (fuel : Nat) (ctx : Context) :
    Option (FRes (Context × List Warning)) :=
  match lfGo fuel ctx ctx.keys with
  | none => none
  | some FRes.panic => some FRes.panic
  | some (FRes.ok ws) => some (FRes.ok (ctx, ws))

/-- `left_factor` terminates on `ctx` iff some fuel suffices for every loop
and recursion it performs (a panic is still termination). -/
def LeftFactorTerminates (ctx : Context) : Prop :=
  ∃ fuel, (left_factor fuel ctx).isSome

/-! Derivation semantics of a grammar, for the language-preservation claim:
one rewriting step replaces one nonterminal occurrence by the symbol
sequence of one of its productions. -/

/-- One derivation step of the grammar stored in `ctx`. -/
inductive Step (ctx : Context) : List Symbol → List Symbol → Prop where
  | mk (pre post : List Symbol) (p : Production) (hp : p ∈ ctx.prodList) :
      Step ctx (pre ++ [Symbol.nonterm p.nt] ++ post) (pre ++ p.syms ++ post)

/-- Derivation in exactly `n` steps. -/
inductive DerivesN (ctx : Context) : Nat → List Symbol → List Symbol → Prop where
  | refl (s : List Symbol) : DerivesN ctx 0 s s
  | head {s t u : List Symbol} {n : Nat} :
      Step ctx s t → DerivesN ctx n t u → DerivesN ctx (n + 1) s u

/-- Derivation in any number of steps. -/
def Derives (ctx : Context) (s t : List Symbol) : Prop :=
  ∃ n, DerivesN ctx n s t

/-- The sentential form of a terminal string. -/
def TermStr (w : List Term) : List Symbol :=
  w.map Symbol.term

/-- `w` belongs to the language derivable from nonterminal `nt`. -/
def LangMem (ctx : Context) (nt : Nonterm) (w : List Term) : Prop :=
  Derives ctx [Symbol.nonterm nt] (TermStr w)

/-! The leading-nonterminal expansion relation implemented by the
breadth-first loop of `disambiguate`. -/

/-- One expansion step: replace a leading nonterminal by the symbol sequence
of one of its productions, keeping the tail. -/
inductive ExpStep (ctx : Context) : SymSeq → SymSeq → Prop where
  | expand (nt : Nonterm) (rest : SymSeq) (p : Production) (hp : p ∈ ctx.prodsOf nt) :
      ExpStep ctx (Symbol.nonterm nt :: rest) (p.syms ++ rest)

/-- Zero or more leading-nonterminal expansion steps. -/
def ExpReach (ctx : Context) : SymSeq → SymSeq → Prop :=
  Relation.ReflTransGen (ExpStep ctx)

/-- Does the sequence start with a terminal symbol? -/
def headTerm : SymSeq → Bool
  | Symbol.term _ :: _ => true
  | _ => false

/-! Freshness bookkeeping for anonymous nonterminals. -/

/-- Is the nonterminal either named, or anonymous with index below `c`? -/
def anonBelow : Nonterm → Nat → Bool
  | Nonterm.named _, _ => true
  | Nonterm.anon k, c => k < c

/-- `anonBelow`, lifted to symbols. -/
def anonBelowSym : Symbol → Nat → Bool
  | Symbol.term _, _ => true
  | Symbol.nonterm n, c => anonBelow n c

/-- Every anonymous nonterminal occurring in the grammar (as an owner or
inside a symbol sequence) has an index below the context's counter, so
`anonymous_nonterm` really returns a never-before-seen nonterminal.  This is
the freshness invariant the source's process-wide counter maintains. -/
def Context.Fresh (ctx : Context) : Prop :=
  ∀ p ∈ ctx.prodList,
    anonBelow p.nt ctx.counter = true ∧
    ∀ s ∈ p.syms, anonBelowSym s ctx.counter = true

instance (ctx : Context) : Decidable ctx.Fresh := by
  unfold Context.Fresh; infer_instance

/-! Concrete grammars used to exercise the claims. -/

/-- Nonterminal `S` of the test grammars. -/
def ntS : Nonterm := Nonterm.named 0

/-- Nonterminal `T` (also used as `A`, `B`, `X`) of the test grammars. -/
def ntT : Nonterm := Nonterm.named 1

/-- The scenario grammar `S → S "+" T | T`, `T → "id"` with `"+"` as terminal
0 and `"id"` as terminal 1. -/
def ctxScenario : Context :=
  ⟨[⟨ntS, [Symbol.nonterm ntS, Symbol.term 0, Symbol.nonterm ntT]⟩,
    ⟨ntS, [Symbol.nonterm ntT]⟩,
    ⟨ntT, [Symbol.term 1]⟩], 0⟩

/-- The auxiliary nonterminal allocated for `ctxScenario` (counter 0). -/
def auxS : Nonterm := Nonterm.anon 0

/-- Degenerate cyclic grammar `S → S | a` (terminal 3). -/
def ctxCyclic : Context :=
  ⟨[⟨ntS, [Symbol.nonterm ntS]⟩, ⟨ntS, [Symbol.term 3]⟩], 0⟩

/-- Overlap grammar `A → x | x x` (terminal 1): after expansion the set
`done` is `{[x], [x, x]}`, whose common prefix and suffix overlap. -/
def ctxOverlap : Context :=
  ⟨[⟨ntS, [Symbol.term 1]⟩, ⟨ntS, [Symbol.term 1, Symbol.term 1]⟩], 0⟩

/-- The spec's §8 factoring scenario `A → x y | x z` (terminals 7, 8, 9). -/
def ctxXYZ : Context :=
  ⟨[⟨ntS, [Symbol.term 7, Symbol.term 8]⟩,
    ⟨ntS, [Symbol.term 7, Symbol.term 9]⟩], 0⟩

/-- Grammar `X → u | v` (terminals 1, 2), used to build a FIRST set with two
terminals for the sweep counterexample. -/
def ctxUV : Context :=
  ⟨[⟨ntS, [Symbol.term 1]⟩, ⟨ntS, [Symbol.term 2]⟩], 0⟩

/-- The empty grammar. -/
def ctxEmpty : Context := ⟨[], 0⟩

/-- Grammar with the single production `S → ε`: expanding `[S]` produces the
empty sequence, which the expansion loop drops. -/
def ctxEps : Context := ⟨[⟨ntS, []⟩], 0⟩

/-- Grammar with the single production `S → "id"` (terminal 1). -/
def ctxSid : Context := ⟨[⟨ntS, [Symbol.term 1]⟩], 0⟩

/-- Indirectly left-recursive grammar `S → A x | A y`, `A → S | t`
(terminals 1, 2, 3; `A` is `ntT`).  It contains no immediate left recursion,
so `remove_left_recursion` leaves it unchanged, yet the expansion loop of
`disambiguate` never empties its working set on it. -/
def ctxIndirect : Context :=
  ⟨[⟨ntS, [Symbol.nonterm ntT, Symbol.term 1]⟩,
    ⟨ntS, [Symbol.nonterm ntT, Symbol.term 2]⟩,
    ⟨ntT, [Symbol.nonterm ntS]⟩,
    ⟨ntT, [Symbol.term 3]⟩], 0⟩

/-! Basic lemmas about the set operations. -/

theorem mem_sinsert {α : Type} [DecidableEq α] {x y : α} {l : List α} :
    y ∈ sinsert x l ↔ y = x ∨ y ∈ l := by
  unfold sinsert
  by_cases h : x ∈ l
  · simp only [if_pos h]
    constructor
    · exact Or.inr
    · rintro (rfl | hy)
      · exact h
      · exact hy
  · simp [if_neg h, or_comm]

theorem sinsert_nodup {α : Type} [DecidableEq α] {x : α} {l : List α}
    (h : l.Nodup) : (sinsert x l).Nodup := by
  unfold sinsert
  by_cases hx : x ∈ l
  · simpa [if_pos hx]
  · simp only [if_neg hx]
    exact List.Nodup.append h (List.nodup_singleton x) (by simpa using hx)

theorem mem_sunion {α : Type} [DecidableEq α] {y : α} :
    ∀ {xs l : List α}, y ∈ sunion l xs ↔ y ∈ l ∨ y ∈ xs := by
  intro xs
  induction xs with
  | nil => simp [sunion]
  | cons x xs ih =>
    intro l
    show y ∈ sunion (sinsert x l) xs ↔ _
    rw [ih, mem_sinsert]
    simp only [List.mem_cons]
    tauto

theorem mem_foldl_sinsert_image {α β : Type} [DecidableEq β] (f : α → β) :
    ∀ {items : List α} {acc : List β} {y : β},
      y ∈ items.foldl (fun a x => sinsert (f x) a) acc ↔
        y ∈ acc ∨ ∃ x ∈ items, y = f x := by
  intro items
  induction items with
  | nil => simp
  | cons i is ih =>
    intro acc y
    show y ∈ is.foldl _ (sinsert (f i) acc) ↔ _
    rw [ih, mem_sinsert]
    simp only [List.mem_cons]
    constructor
    · rintro ((rfl | hy) | ⟨x, hx, rfl⟩)
      · exact Or.inr ⟨i, Or.inl rfl, rfl⟩
      · exact Or.inl hy
      · exact Or.inr ⟨x, Or.inr hx, rfl⟩
    · rintro (hy | ⟨x, rfl | hx, rfl⟩)
      · exact Or.inl (Or.inr hy)
      · exact Or.inl (Or.inl rfl)
      · exact Or.inr ⟨x, hx, rfl⟩

theorem mem_dedupSeqs {l : List SymSeq} {s : SymSeq} :
    s ∈ dedupSeqs l ↔ s ∈ l := by
  unfold dedupSeqs
  rw [show (fun (acc : List SymSeq) t => sinsert t acc) =
        (fun acc t => sinsert (id t) acc) from rfl,
      mem_foldl_sinsert_image id]
  simp

theorem mem_keys {ctx : Context} {m : Nonterm} :
    m ∈ ctx.keys ↔ ∃ p ∈ ctx.prodList, p.nt = m := by
  unfold Context.keys
  rw [show (fun (acc : List Nonterm) (p : Production) => sinsert p.nt acc) =
        (fun acc p => sinsert (Production.nt p) acc) from rfl,
      mem_foldl_sinsert_image Production.nt]
  simp only [List.not_mem_nil, false_or]
  constructor
  · rintro ⟨p, hp, rfl⟩; exact ⟨p, hp, rfl⟩
  · rintro ⟨p, hp, rfl⟩; exact ⟨p, hp, rfl⟩

theorem mem_prodsOf {ctx : Context} {m : Nonterm} {p : Production} :
    p ∈ ctx.prodsOf m ↔ p ∈ ctx.prodList ∧ p.nt = m := by
  unfold Context.prodsOf
  simp [List.mem_filter]

/-! C10: the spec's elimination scenario. -/

/-- C10: running `remove_left_recursion` on the grammar `S → S "+" T | T`,
`T → "id"` yields exactly the productions `S → T A`, `A → "+" T A`, `A → ε`
and `T → "id"`, where `A` is the single fresh auxiliary nonterminal
`Nonterm.anon 0`, which does not occur in the input grammar. -/
theorem c10_scenario_elimination :
    (remove_left_recursion ctxScenario).prodList =
      [⟨ntT, [Symbol.term 1]⟩,
       ⟨auxS, [Symbol.term 0, Symbol.nonterm ntT, Symbol.nonterm auxS]⟩,
       ⟨auxS, []⟩,
       ⟨ntS, [Symbol.nonterm ntT, Symbol.nonterm auxS]⟩] ∧
    (remove_left_recursion ctxScenario).prodList.Nodup ∧
    (remove_left_recursion ctxScenario).counter = 1 ∧
    (∀ p ∈ ctxScenario.prodList, p.nt ≠ auxS ∧ Symbol.nonterm auxS ∉ p.syms) := by
  decide

/-! C2: residual immediate left recursion in the auxiliary nonterminal. -/

/-- C2 counterexample: on the input grammar `S → S | a` the transform emits
the auxiliary production `A → A` (for `A = Nonterm.anon 0`), whose first
symbol is the nonterminal that owns it, so the output grammar is not free of
immediate left recursion. -/
theorem c2_cyclic_counterexample :
    (⟨Nonterm.anon 0, [Symbol.nonterm (Nonterm.anon 0)]⟩ : Production) ∈
      (remove_left_recursion ctxCyclic).prodList ∧
    ∃ p ∈ (remove_left_recursion ctxCyclic).prodList,
      p.syms.head? = some (Symbol.nonterm p.nt) := by
  decide

/-! C5: the common prefix and suffix of `done` can overlap. -/

/-- C5 counterexample: on the grammar `A → x | x x` the expanded set `done`
of `disambiguate` is `{[x], [x, x]}`; its common prefix and common suffix
both have length 1, which exceeds the length 1 of the member `[x]`, so the
core extraction is out of bounds (a Rust slice panic), and the panic
propagates out of `left_factor`. -/
theorem c5_overlap_panic :
    cpLen [[Symbol.term 1], [Symbol.term 1, Symbol.term 1]] = 1 ∧
    csLen [[Symbol.term 1], [Symbol.term 1, Symbol.term 1]] = 1 ∧
    extractCore 1 1 [Symbol.term 1] = none ∧
    dsF 5 ctxOverlap [[Symbol.term 1], [Symbol.term 1, Symbol.term 1]] [] =
      some FRes.panic ∧
    left_factor 20 ctxOverlap = some FRes.panic := by
  decide

/-! C7: the cycle guard aborts with a warning and no other effect. -/

/-- C7: whenever `disambiguate` reaches the cycle guard with a core-segment
set of which at least one member is already on the recursion stack, it
returns successfully (no panic, no error) with exactly one cycle warning for
that segment set, the stack it was given unchanged, and without invoking
`handle_conflict` on the segments. -/
theorem c7_cycle_guard_aborts (fuel : Nat) (ctx : Context)
    (seqs stack done cores : List SymSeq)
    (h1 : ¬ seqs.length = 1)
    (h2 : expandLoop ctx (fuel + 1) (dedupSeqs seqs) [] = some done)
    (h3 : ¬ done.length ≤ 1)
    (h4 : extractCores (cpLen done) (csLen done) done = some cores)
    (h5 : (dedupSeqs cores).any (fun s => s ∈ stack) = true) :
    dsF (fuel + 1) ctx seqs stack = some (FRes.ok (stack, [dedupSeqs cores])) := by
  unfold dsF
  rw [if_neg h1, h2]
  dsimp only
  rw [if_neg h3, h4]
  dsimp only
  rw [if_pos h5]

/-- C7 witness: a concrete aborted call of `disambiguate`. -/
theorem c7_cycle_guard_witness :
    dsF 5 ctxEmpty [[Symbol.term 5], [Symbol.term 6]] [[Symbol.term 5]] =
      some (FRes.ok ([[Symbol.term 5]], [[[Symbol.term 5], [Symbol.term 6]]])) :=
  c7_cycle_guard_aborts 4 ctxEmpty [[Symbol.term 5], [Symbol.term 6]]
    [[Symbol.term 5]] [[Symbol.term 5], [Symbol.term 6]]
    [[Symbol.term 5], [Symbol.term 6]]
    (by decide) (by decide) (by decide) (by decide) (by decide)

/-! C8: the sweep scans the unassigned sequences once, not once per growth. -/

/-- C8 counterexample: with the grammar `X → u | v` and the sweep input
seeded by `[u]` followed by `[v]` and `[X]`, the sequence `[v]` is left
unassigned, yet its FIRST set `{v}` meets the final accumulated union
`{u, v}` of the seed's group (the member `[X]`, scanned after `[v]`, grew
the union).  So an unassigned sequence is not disjoint from the final union,
and the transitive chain `[v] — [X] — [u]` is not put into one group. -/
theorem c8_sweep_counterexample :
    (sweep ctxUV [Symbol.term 1] [[Symbol.term 2], [Symbol.nonterm ntS]]).leftover =
      [[Symbol.term 2]] ∧
    ((ctxUV.first_set_of_symbols [Symbol.term 2]).any
      (fun t => t ∈ (sweep ctxUV [Symbol.term 1]
        [[Symbol.term 2], [Symbol.nonterm ntS]]).seen)) = true := by
  decide

/-! C9: empty expansions are dropped, not collected. -/

/-- C9 counterexample: with the grammar `S → ε`, the expansion loop run on
the working set `{[S]}` terminates with `done = ∅`, although the empty
sequence is a fully-expanded result of the input (one expansion step), so a
fully-expanded empty sequence is not a member of `done`. -/
theorem c9_empty_dropped :
    expandLoop ctxEps 5 [[Symbol.nonterm ntS]] [] = some [] ∧
    ExpStep ctxEps [Symbol.nonterm ntS] [] ∧
    ∀ s : SymSeq, s ∉ ([] : List SymSeq) := by
  refine ⟨by decide, ?_, by simp⟩
  have h : (⟨ntS, []⟩ : Production) ∈ ctxEps.prodsOf ntS := by decide
  exact ExpStep.expand ntS [] ⟨ntS, []⟩ h

/-! C4: soundness and completeness of `has_conflict`. -/

theorem hcGo_cons (ctx : Context) (p : Production) (rest : List Production)
    (seen : List Term) :
    hcGo ctx (p :: rest) seen =
      if ((ctx.first_set_of_symbols p.syms).any fun t => decide (t ∈ seen)) = true
      then true
      else hcGo ctx rest (sunion seen (ctx.first_set_of_symbols p.syms)) := rfl

theorem hcGo_true_iff (ctx : Context) :
    ∀ (ps : List Production) (seen : List Term), ps.Nodup →
      (hcGo ctx ps seen = true ↔
        (∃ p ∈ ps, ∃ t ∈ ctx.first_set_of_symbols p.syms, t ∈ seen) ∨
        (∃ p₁ ∈ ps, ∃ p₂ ∈ ps, p₁ ≠ p₂ ∧ ∃ t,
          t ∈ ctx.first_set_of_symbols p₁.syms ∧
          t ∈ ctx.first_set_of_symbols p₂.syms)) := by
  intro ps
  induction ps with
  | nil => intro seen _; simp [hcGo]
  | cons p rest ih =>
    intro seen hnd
    have hp_rest : p ∉ rest := (List.nodup_cons.mp hnd).1
    have hnd' : rest.Nodup := (List.nodup_cons.mp hnd).2
    rw [hcGo_cons]
    by_cases hc :
        ((ctx.first_set_of_symbols p.syms).any fun t => decide (t ∈ seen)) = true
    · rw [if_pos hc]
      simp only [true_iff]
      rcases List.any_eq_true.mp hc with ⟨t, ht, hts⟩
      exact Or.inl ⟨p, List.mem_cons_self p rest, t, ht, of_decide_eq_true hts⟩
    · have hmiss : ∀ t ∈ ctx.first_set_of_symbols p.syms, t ∉ seen := by
        intro t ht hts
        exact hc (List.any_eq_true.mpr ⟨t, ht, decide_eq_true hts⟩)
      rw [if_neg hc, ih _ hnd']
      constructor
      · rintro (⟨q, hq, t, htq, hts⟩ | ⟨p₁, h₁, p₂, h₂, hne, t, ht₁, ht₂⟩)
        · rcases mem_sunion.mp hts with hts | htp
          · exact Or.inl ⟨q, List.mem_cons_of_mem p hq, t, htq, hts⟩
          · refine Or.inr ⟨p, List.mem_cons_self p rest, q,
              List.mem_cons_of_mem p hq, ?_, t, htp, htq⟩
            rintro rfl; exact hp_rest hq
        · exact Or.inr ⟨p₁, List.mem_cons_of_mem p h₁, p₂,
            List.mem_cons_of_mem p h₂, hne, t, ht₁, ht₂⟩
      · rintro (⟨q, hq, t, htq, hts⟩ | ⟨p₁, h₁, p₂, h₂, hne, t, ht₁, ht₂⟩)
        · rcases List.mem_cons.mp hq with e | hq
          · exact absurd hts (hmiss t (e ▸ htq))
          · exact Or.inl ⟨q, hq, t, htq, mem_sunion.mpr (Or.inl hts)⟩
        · rcases List.mem_cons.mp h₁ with e₁ | h₁
          · rcases List.mem_cons.mp h₂ with e₂ | h₂
            · exact absurd (e₁.trans e₂.symm) hne
            · exact Or.inl ⟨p₂, h₂, t, ht₂, mem_sunion.mpr (Or.inr (e₁ ▸ ht₁))⟩
          · rcases List.mem_cons.mp h₂ with e₂ | h₂
            · exact Or.inl ⟨p₁, h₁, t, ht₁, mem_sunion.mpr (Or.inr (e₂ ▸ ht₂))⟩
            · exact Or.inr ⟨p₁, h₁, p₂, h₂, hne, t, ht₁, ht₂⟩

/-- C4: `has_conflict(ctx, ps)` returns true iff some terminal belongs to the
FIRST sets of two distinct productions of `ps`; in particular it returns
false when the FIRST sets of the productions are pairwise disjoint. -/
theorem c4_has_conflict_iff (ctx : Context) (ps : List Production)
    (hnd : ps.Nodup) :
    has_conflict ctx ps = true ↔
      ∃ p₁ ∈ ps, ∃ p₂ ∈ ps, p₁ ≠ p₂ ∧ ∃ t,
        t ∈ ctx.first_set_of_symbols p₁.syms ∧
        t ∈ ctx.first_set_of_symbols p₂.syms := by
  rw [has_conflict, hcGo_true_iff ctx ps [] hnd]
  simp

/-- C4 witness: on the grammar `A → x | x x` the detector fires, and applying
the theorem yields two distinct productions sharing a FIRST terminal. -/
theorem c4_has_conflict_witness :
    (ctxOverlap.prodsOf ntS).Nodup ∧
    ∃ p₁ ∈ ctxOverlap.prodsOf ntS, ∃ p₂ ∈ ctxOverlap.prodsOf ntS,
      p₁ ≠ p₂ ∧ ∃ t,
        t ∈ ctxOverlap.first_set_of_symbols p₁.syms ∧
        t ∈ ctxOverlap.first_set_of_symbols p₂.syms :=
  ⟨by decide,
   (c4_has_conflict_iff ctxOverlap (ctxOverlap.prodsOf ntS) (by decide)).mp
     (by decide)⟩

/-! C5 (amended): the prefix and the suffix are each bounded by every
sequence of `done`, though their sum is not. -/

theorem allSameAt_cons (d0 : SymSeq) (rest : List SymSeq) (k : Nat) :
    allSameAt (d0 :: rest) k =
      match d0.get? k with
      | none => none
      | some s =>
        if (rest.all fun e => decide (e.get? k = some s)) = true then some s
        else none := rfl

theorem allSameAt_mem {done : List SymSeq} {k : Nat} {s : Symbol}
    (h : allSameAt done k = some s) :
    ∀ d ∈ done, d.get? k = some s := by
  rcases done with _ | ⟨d0, rest⟩
  · cases h
  · rw [allSameAt_cons] at h
    rcases h0 : d0.get? k with _ | s0
    · simp only [h0] at h
      cases h
    · simp only [h0] at h
      by_cases hall : (rest.all fun e => decide (List.get? e k = some s0)) = true
      · rw [if_pos hall] at h
        injection h with hs
        intro d hd
        rcases List.mem_cons.mp hd with e | hd
        · rw [e, h0, hs]
        · rw [← hs]
          exact of_decide_eq_true (List.all_eq_true.mp hall d hd)
      · rw [if_neg hall] at h
        cases h

theorem cpGo_le_length {done : List SymSeq} {d : SymSeq} (hd : d ∈ done) :
    ∀ (fuel k : Nat), k ≤ d.length → cpGo done fuel k ≤ d.length := by
  intro fuel
  induction fuel with
  | zero => intro k hk; exact hk
  | succ fuel ih =>
    intro k hk
    unfold cpGo
    rcases h : allSameAt done k with _ | s
    · exact hk
    · have hget := allSameAt_mem h d hd
      have hk' : k < d.length := by
        by_contra hge
        rw [List.get?_eq_none.mpr (Nat.le_of_not_lt hge)] at hget
        cases hget
      exact ih (k + 1) hk'

/-- C5 (amended): for every sequence `d` of the expanded set `done`, the
common-prefix length and the common-suffix length computed by `disambiguate`
are each at most the length of `d`; their sum however can exceed it (see the
counterexample), in which case the core extraction panics. -/
theorem c5_prefix_suffix_bounds (done : List SymSeq) (d : SymSeq)
    (hd : d ∈ done) :
    cpLen done ≤ d.length ∧ csLen done ≤ d.length := by
  constructor
  · exact cpGo_le_length hd _ 0 (Nat.zero_le _)
  · have hrev : d.reverse ∈ done.map List.reverse := List.mem_map_of_mem _ hd
    have := cpGo_le_length hrev (maxLenOf done + 1) 0 (Nat.zero_le _)
    simpa [csLen] using this

/-- C5 witness: the bounds at the concrete overlapping `done`. -/
theorem c5_prefix_suffix_bounds_witness :
    ([Symbol.term 1] : SymSeq) ∈
      [[Symbol.term 1], [Symbol.term 1, Symbol.term 1]] ∧
    cpLen [[Symbol.term 1], [Symbol.term 1, Symbol.term 1]] ≤ 1 ∧
    csLen [[Symbol.term 1], [Symbol.term 1, Symbol.term 1]] ≤ 1 :=
  ⟨by decide,
   c5_prefix_suffix_bounds [[Symbol.term 1], [Symbol.term 1, Symbol.term 1]]
     [Symbol.term 1] (by decide)⟩

/-! C6: `left_factor` never changes the grammar. -/

/-- C6: whenever `left_factor` returns normally, the context it hands back is
the input context: the nonterminal-to-productions mapping and the anonymous
counter are unchanged — no production is added or removed and no auxiliary
nonterminal is allocated.  (The helpers `has_conflict`, `handle_conflict` and
`disambiguate` all take the context by shared reference in the source and
mutate only the recursion stack.) -/
theorem c6_left_factor_frame (fuel : Nat) (ctx r : Context) (ws : List Warning)
    (h : left_factor fuel ctx = some (FRes.ok (r, ws))) :
    r = ctx ∧ r.prodList = ctx.prodList ∧ r.counter = ctx.counter := by
  unfold left_factor at h
  rcases hl : lfGo fuel ctx ctx.keys with _ | fr
  · rw [hl] at h; cases h
  · rcases fr with _ | ws'
    · rw [hl] at h; cases h
    · rw [hl] at h
      simp only [Option.some.injEq, FRes.ok.injEq, Prod.mk.injEq] at h
      exact ⟨h.1.symm, by rw [h.1], by rw [h.1]⟩

/-- C6 witness: the factoring scenario grammar `A → x y | x z` runs to
completion and the theorem applies. -/
theorem c6_left_factor_frame_witness :
    left_factor 20 ctxXYZ = some (FRes.ok (ctxXYZ, [])) ∧
    (ctxXYZ = ctxXYZ ∧ ctxXYZ.prodList = ctxXYZ.prodList ∧
      ctxXYZ.counter = ctxXYZ.counter) :=
  ⟨by decide, c6_left_factor_frame 20 ctxXYZ ctxXYZ [] (by decide)⟩

/-! C8 (amended): an unassigned sequence is disjoint from the union at the
moment it was scanned. -/

theorem scan_leftover_disjoint (ctx : Context) :
    ∀ (rest : List SymSeq) (acc : SweepOut) (s : SymSeq),
      s ∈ (rest.foldl (scanStep ctx) acc).leftover →
      s ∈ acc.leftover ∨
      ∃ l1 l2, rest = l1 ++ s :: l2 ∧
        ((ctx.first_set_of_symbols s).any
          (fun t => t ∈ (l1.foldl (scanStep ctx) acc).seen)) = false := by
  intro rest
  induction rest with
  | nil => intro acc s h; exact Or.inl h
  | cons r rs ih =>
    intro acc s h
    rcases ih (scanStep ctx acc r) s h with h' | ⟨l1, l2, he, hdis⟩
    · by_cases hit :
          ((ctx.first_set_of_symbols r).any fun t => decide (t ∈ acc.seen)) = true
      · left
        have : scanStep ctx acc r =
            { colliders := acc.colliders ++ [r]
              seen := sunion acc.seen (ctx.first_set_of_symbols r)
              leftover := acc.leftover } := by
          unfold scanStep; rw [if_pos hit]
        rw [this] at h'
        exact h'
      · have : scanStep ctx acc r = { acc with leftover := acc.leftover ++ [r] } := by
          unfold scanStep; rw [if_neg hit]
        rw [this] at h'
        rcases List.mem_append.mp h' with h' | h'
        · exact Or.inl h'
        · have hs : s = r := by simpa using h'
          subst hs
          refine Or.inr ⟨[], rs, rfl, ?_⟩
          simpa using hit
    · refine Or.inr ⟨r :: l1, l2, by rw [he]; rfl, ?_⟩
      simpa using hdis

/-- C8 (amended): every sequence left unassigned at the end of a single-seed
sweep of `handle_conflict` has a FIRST set disjoint from the running union at
the moment it was scanned (the union over the seed and the group members
accumulated before that sequence's position).  It can still share a terminal
with the final accumulated union, because the sweep scans the remaining
sequences exactly once per seed rather than once per growth of the group
(see the counterexample). -/
theorem c8_sweep_scan_disjoint (ctx : Context) (init : SymSeq)
    (rest : List SymSeq) (s : SymSeq)
    (h : s ∈ (sweep ctx init rest).leftover) :
    ∃ l1 l2, rest = l1 ++ s :: l2 ∧
      ((ctx.first_set_of_symbols s).any
        (fun t => t ∈ (l1.foldl (scanStep ctx)
          ⟨[init], ctx.first_set_of_symbols init, []⟩).seen)) = false := by
  rcases scan_leftover_disjoint ctx rest
      ⟨[init], ctx.first_set_of_symbols init, []⟩ s h with h' | h'
  · exact absurd h' (List.not_mem_nil s)
  · exact h'

/-- C8 witness: the scan-time disjointness at the concrete sweep of the
counterexample. -/
theorem c8_sweep_scan_disjoint_witness :
    [Symbol.term 2] ∈
      (sweep ctxUV [Symbol.term 1] [[Symbol.term 2], [Symbol.nonterm ntS]]).leftover ∧
    ∃ l1 l2,
      [[Symbol.term 2], [Symbol.nonterm ntS]] = l1 ++ [Symbol.term 2] :: l2 ∧
      ((ctxUV.first_set_of_symbols [Symbol.term 2]).any
        (fun t => t ∈ (l1.foldl (scanStep ctxUV)
          ⟨[[Symbol.term 1]], ctxUV.first_set_of_symbols [Symbol.term 1], []⟩).seen)) =
        false :=
  ⟨by decide,
   c8_sweep_scan_disjoint ctxUV [Symbol.term 1]
     [[Symbol.term 2], [Symbol.nonterm ntS]] [Symbol.term 2] (by decide)⟩

/-! C9 (amended): `done` is exactly the set of terminal-initial full
expansions; empty expansions are dropped. -/

theorem expandOne_nil (ctx : Context) (acc : List SymSeq × List SymSeq) :
    expandOne ctx acc [] = acc := rfl

theorem expandOne_nonterm (ctx : Context) (acc : List SymSeq × List SymSeq)
    (nt : Nonterm) (rest : SymSeq) :
    expandOne ctx acc (Symbol.nonterm nt :: rest) =
      ((ctx.prodsOf nt).foldl (fun ls p => sinsert (p.syms ++ rest) ls) acc.1,
       acc.2) := rfl

theorem expandOne_term (ctx : Context) (acc : List SymSeq × List SymSeq)
    (t : Term) (rest : SymSeq) :
    expandOne ctx acc (Symbol.term t :: rest) =
      (acc.1, sinsert (Symbol.term t :: rest) acc.2) := rfl

theorem expandOne_mono (ctx : Context) (acc : List SymSeq × List SymSeq)
    (lead : SymSeq) (x : SymSeq) :
    (x ∈ acc.1 → x ∈ (expandOne ctx acc lead).1) ∧
    (x ∈ acc.2 → x ∈ (expandOne ctx acc lead).2) := by
  rcases lead with _ | ⟨s, rest⟩
  · exact ⟨id, id⟩
  · rcases s with t | nt
    · rw [expandOne_term]
      exact ⟨id, fun h => mem_sinsert.mpr (Or.inr h)⟩
    · rw [expandOne_nonterm]
      refine ⟨fun h => ?_, id⟩
      exact (mem_foldl_sinsert_image (fun p : Production => p.syms ++ rest)).mpr
        (Or.inl h)

theorem foldl_expandOne_mono (ctx : Context) :
    ∀ (snap : List SymSeq) (acc : List SymSeq × List SymSeq) (x : SymSeq),
      (x ∈ acc.1 → x ∈ (snap.foldl (expandOne ctx) acc).1) ∧
      (x ∈ acc.2 → x ∈ (snap.foldl (expandOne ctx) acc).2) := by
  intro snap
  induction snap with
  | nil => exact fun acc x => ⟨id, id⟩
  | cons a as ih =>
    intro acc x
    refine ⟨fun h => ?_, fun h => ?_⟩
    · exact (ih (expandOne ctx acc a) x).1 ((expandOne_mono ctx acc a x).1 h)
    · exact (ih (expandOne ctx acc a) x).2 ((expandOne_mono ctx acc a x).2 h)

theorem foldl_expandOne_term_mem (ctx : Context) :
    ∀ (snap : List SymSeq) (acc : List SymSeq × List SymSeq) (lead : SymSeq),
      lead ∈ snap → headTerm lead = true →
      lead ∈ (snap.foldl (expandOne ctx) acc).2 := by
  intro snap
  induction snap with
  | nil => intro acc lead h; cases h
  | cons a as ih =>
    intro acc lead hmem hterm
    rcases List.mem_cons.mp hmem with e | hmem
    · subst e
      rcases lead with _ | ⟨s, rest⟩
      · cases hterm
      · rcases s with t | nt
        · refine (foldl_expandOne_mono ctx as _ _).2 ?_
          rw [expandOne_term]
          exact mem_sinsert.mpr (Or.inl rfl)
        · cases hterm
    · exact ih (expandOne ctx acc a) lead hmem hterm

theorem foldl_expandOne_step_mem (ctx : Context) :
    ∀ (snap : List SymSeq) (acc : List SymSeq × List SymSeq)
      (lead x : SymSeq),
      lead ∈ snap → ExpStep ctx lead x →
      x ∈ (snap.foldl (expandOne ctx) acc).1 := by
  intro snap
  induction snap with
  | nil => intro acc lead x h; cases h
  | cons a as ih =>
    intro acc lead x hmem hstep
    rcases List.mem_cons.mp hmem with e | hmem
    · rcases hstep with ⟨nt, rest, p, hp⟩
      refine (foldl_expandOne_mono ctx as _ _).1 ?_
      rw [← e, expandOne_nonterm]
      exact (mem_foldl_sinsert_image (fun p : Production => p.syms ++ rest)).mpr
        (Or.inr ⟨p, hp, rfl⟩)
    · exact ih (expandOne ctx acc a) lead x hmem hstep

theorem foldl_expandOne_leads_src (ctx : Context) :
    ∀ (snap : List SymSeq) (acc : List SymSeq × List SymSeq) (x : SymSeq),
      x ∈ (snap.foldl (expandOne ctx) acc).1 →
      x ∈ acc.1 ∨ ∃ lead ∈ snap, ExpStep ctx lead x := by
  intro snap
  induction snap with
  | nil => intro acc x h; exact Or.inl h
  | cons a as ih =>
    intro acc x h
    rcases ih (expandOne ctx acc a) x h with h' | ⟨lead, hl, hs⟩
    · rcases a with _ | ⟨s, rest⟩
      · exact Or.inl h'
      · rcases s with t | nt
        · exact Or.inl h'
        · rw [expandOne_nonterm] at h'
          rcases (mem_foldl_sinsert_image
              (fun p : Production => p.syms ++ rest)).mp h' with h' | ⟨p, hp, e⟩
          · exact Or.inl h'
          · exact Or.inr ⟨Symbol.nonterm nt :: rest, List.mem_cons_self _ _,
              e ▸ ExpStep.expand nt rest p hp⟩
    · exact Or.inr ⟨lead, List.mem_cons_of_mem a hl, hs⟩

theorem foldl_expandOne_done_src (ctx : Context) :
    ∀ (snap : List SymSeq) (acc : List SymSeq × List SymSeq) (x : SymSeq),
      x ∈ (snap.foldl (expandOne ctx) acc).2 →
      x ∈ acc.2 ∨ (x ∈ snap ∧ headTerm x = true) := by
  intro snap
  induction snap with
  | nil => intro acc x h; exact Or.inl h
  | cons a as ih =>
    intro acc x h
    rcases ih (expandOne ctx acc a) x h with h' | ⟨hx, ht⟩
    · rcases a with _ | ⟨s, rest⟩
      · exact Or.inl h'
      · rcases s with t | nt
        · rw [expandOne_term] at h'
          rcases mem_sinsert.mp h' with e | h'
          · exact Or.inr ⟨e ▸ List.mem_cons_self _ _, by rw [e]; rfl⟩
          · exact Or.inl h'
        · exact Or.inl h'
    · exact Or.inr ⟨List.mem_cons_of_mem a hx, ht⟩

theorem expandLoop_nil (ctx : Context) (fuel : Nat) (done : List SymSeq) :
    expandLoop ctx fuel [] done = some done := by
  cases fuel <;> rfl

theorem expandLoop_sound (ctx : Context) (R : SymSeq → Prop)
    (hR : ∀ x y, R x → ExpStep ctx x y → R y) :
    ∀ (fuel : Nat) (leads done D : List SymSeq),
      (∀ x ∈ leads, R x) → (∀ x ∈ done, R x ∧ headTerm x = true) →
      expandLoop ctx fuel leads done = some D →
      ∀ x ∈ D, R x ∧ headTerm x = true := by
  intro fuel
  induction fuel with
  | zero =>
    intro leads done D hl hd h
    rcases leads with _ | ⟨l, ls⟩
    · rw [expandLoop_nil] at h
      injection h with h
      exact h ▸ hd
    · cases h
  | succ fuel ih =>
    intro leads done D hl hd h
    rcases leads with _ | ⟨l, ls⟩
    · rw [expandLoop_nil] at h
      injection h with h
      exact h ▸ hd
    · have h' : expandLoop ctx fuel (expandRound ctx (l :: ls) done).1
          (expandRound ctx (l :: ls) done).2 = some D := h
      refine ih _ _ D ?_ ?_ h'
      · intro x hx
        rcases foldl_expandOne_leads_src ctx (l :: ls) ([], done) x hx with
          h0 | ⟨lead, hlm, hst⟩
        · cases h0
        · exact hR lead x (hl lead hlm) hst
      · intro x hx
        rcases foldl_expandOne_done_src ctx (l :: ls) ([], done) x hx with
          h0 | ⟨hxm, hxt⟩
        · exact hd x h0
        · exact ⟨hl x hxm, hxt⟩

theorem expandLoop_complete (ctx : Context) :
    ∀ (fuel : Nat) (leads done D : List SymSeq),
      expandLoop ctx fuel leads done = some D →
      (∀ x ∈ done, x ∈ D) ∧
      (∀ l ∈ leads, ∀ s, ExpReach ctx l s → headTerm s = true → s ∈ D) := by
  intro fuel
  induction fuel with
  | zero =>
    intro leads done D h
    rcases leads with _ | ⟨l, ls⟩
    · rw [expandLoop_nil] at h
      injection h with h
      exact ⟨fun x hx => h ▸ hx, fun l hl => absurd hl (List.not_mem_nil l)⟩
    · cases h
  | succ fuel ih =>
    intro leads done D h
    rcases leads with _ | ⟨l, ls⟩
    · rw [expandLoop_nil] at h
      injection h with h
      exact ⟨fun x hx => h ▸ hx, fun l hl => absurd hl (List.not_mem_nil l)⟩
    · have h' : expandLoop ctx fuel (expandRound ctx (l :: ls) done).1
          (expandRound ctx (l :: ls) done).2 = some D := h
      rcases ih _ _ D h' with ⟨hdone, hleads⟩
      constructor
      · intro x hx
        exact hdone x ((foldl_expandOne_mono ctx (l :: ls) ([], done) x).2 hx)
      · intro m hm s hreach hterm
        rcases Relation.ReflTransGen.cases_head hreach with e | ⟨mid, hst, hr⟩
        · exact hdone s (e ▸ foldl_expandOne_term_mem ctx (l :: ls) ([], done)
            m hm (e ▸ hterm))
        · exact hleads mid
            (foldl_expandOne_step_mem ctx (l :: ls) ([], done) m mid hm hst)
            s hr hterm

theorem expandLoop_done_nodup (ctx : Context) :
    ∀ (fuel : Nat) (leads done D : List SymSeq), done.Nodup →
      expandLoop ctx fuel leads done = some D → D.Nodup := by
  have hone : ∀ (acc : List SymSeq × List SymSeq) (lead : SymSeq),
      acc.2.Nodup → ((expandOne ctx acc lead).2).Nodup := by
    intro acc lead hn
    rcases lead with _ | ⟨s, rest⟩
    · exact hn
    · rcases s with t | nt
      · rw [expandOne_term]; exact sinsert_nodup hn
      · exact hn
  have hfold : ∀ (snap : List SymSeq) (acc : List SymSeq × List SymSeq),
      acc.2.Nodup → ((snap.foldl (expandOne ctx) acc).2).Nodup := by
    intro snap
    induction snap with
    | nil => exact fun acc h => h
    | cons a as ih => exact fun acc h => ih _ (hone acc a h)
  intro fuel
  induction fuel with
  | zero =>
    intro leads done D hn h
    rcases leads with _ | ⟨l, ls⟩
    · rw [expandLoop_nil] at h; injection h with h; exact h ▸ hn
    · cases h
  | succ fuel ih =>
    intro leads done D hn h
    rcases leads with _ | ⟨l, ls⟩
    · rw [expandLoop_nil] at h; injection h with h; exact h ▸ hn
    · exact ih _ _ D (hfold (l :: ls) ([], done) hn) h

/-- C9 (amended): when the expansion loop of `disambiguate` terminates, the
deduplicated set `done` consists of exactly those sequences that are obtained
from the input group by repeatedly substituting a production's symbol
sequence for the leading nonterminal and that start with a Terminal.
Resulting sequences that are empty are skipped by the loop's `continue`
branch and are not collected (see the counterexample). -/
theorem c9_expansion_characterizes (ctx : Context) (fuel : Nat)
    (leads D : List SymSeq) (h : expandLoop ctx fuel leads [] = some D)
    (s : SymSeq) :
    D.Nodup ∧
    (s ∈ D ↔ (∃ l ∈ leads, ExpReach ctx l s) ∧ headTerm s = true) := by
  refine ⟨expandLoop_done_nodup ctx fuel leads [] D (List.nodup_nil) h, ?_, ?_⟩
  · intro hs
    refine expandLoop_sound ctx (fun x => ∃ l ∈ leads, ExpReach ctx l x)
      ?_ fuel leads [] D ?_ ?_ h s hs
    · rintro x y ⟨l, hl, hr⟩ hst
      exact ⟨l, hl, hr.tail hst⟩
    · exact fun x hx => ⟨x, hx, Relation.ReflTransGen.refl⟩
    · intro x hx; cases hx
  · rintro ⟨⟨l, hl, hr⟩, ht⟩
    exact (expandLoop_complete ctx fuel leads [] D h).2 l hl s hr ht

/-! C3: `left_factor` does not terminate on every grammar — the expansion
loop of `disambiguate` diverges on (indirectly) left-recursive grammars, and
the cycle guard does not protect it. -/

theorem expandLoop_cons (ctx : Context) (fuel : Nat) (l : SymSeq)
    (ls done : List SymSeq) :
    expandLoop ctx (fuel + 1) (l :: ls) done =
      expandLoop ctx fuel (expandRound ctx (l :: ls) done).1
        (expandRound ctx (l :: ls) done).2 := rfl

theorem c3_round_invariant (leads done : List SymSeq)
    (h : ∃ lead ∈ leads, ∃ r,
      lead = Symbol.nonterm ntS :: r ∨ lead = Symbol.nonterm ntT :: r) :
    ∃ lead ∈ (expandRound ctxIndirect leads done).1, ∃ r,
      lead = Symbol.nonterm ntS :: r ∨ lead = Symbol.nonterm ntT :: r := by
  rcases h with ⟨lead, hmem, r, hS | hT⟩
  · have hp : (⟨ntS, [Symbol.nonterm ntT, Symbol.term 1]⟩ : Production) ∈
        ctxIndirect.prodsOf ntS := by decide
    have hstep : ExpStep ctxIndirect lead
        ([Symbol.nonterm ntT, Symbol.term 1] ++ r) := by
      rw [hS]
      exact ExpStep.expand ntS r ⟨ntS, [Symbol.nonterm ntT, Symbol.term 1]⟩ hp
    exact ⟨Symbol.nonterm ntT :: Symbol.term 1 :: r,
      foldl_expandOne_step_mem ctxIndirect leads ([], done) lead _ hmem hstep,
      Symbol.term 1 :: r, Or.inr rfl⟩
  · have hp : (⟨ntT, [Symbol.nonterm ntS]⟩ : Production) ∈
        ctxIndirect.prodsOf ntT := by decide
    have hstep : ExpStep ctxIndirect lead ([Symbol.nonterm ntS] ++ r) := by
      rw [hT]
      exact ExpStep.expand ntT r ⟨ntT, [Symbol.nonterm ntS]⟩ hp
    exact ⟨Symbol.nonterm ntS :: r,
      foldl_expandOne_step_mem ctxIndirect leads ([], done) lead _ hmem hstep,
      r, Or.inl rfl⟩

theorem c3_expandLoop_none :
    ∀ (fuel : Nat) (leads done : List SymSeq),
      (∃ lead ∈ leads, ∃ r,
        lead = Symbol.nonterm ntS :: r ∨ lead = Symbol.nonterm ntT :: r) →
      expandLoop ctxIndirect fuel leads done = none := by
  intro fuel
  induction fuel with
  | zero =>
    intro leads done h
    rcases leads with _ | ⟨l, ls⟩
    · rcases h with ⟨lead, hmem, _⟩
      exact absurd hmem (List.not_mem_nil lead)
    · rfl
  | succ fuel ih =>
    intro leads done h
    rcases leads with _ | ⟨l, ls⟩
    · rcases h with ⟨lead, hmem, _⟩
      exact absurd hmem (List.not_mem_nil lead)
    · rw [expandLoop_cons]
      exact ih _ _ (c3_round_invariant (l :: ls) done h)

theorem c3_dsF_none (fuel : Nat) (stack : List SymSeq) :
    dsF fuel ctxIndirect
      [[Symbol.nonterm ntT, Symbol.term 1], [Symbol.nonterm ntT, Symbol.term 2]]
      stack = none := by
  rcases fuel with _ | fuel
  · rfl
  · unfold dsF
    rw [if_neg (by decide :
      ¬ ([[Symbol.nonterm ntT, Symbol.term 1],
          [Symbol.nonterm ntT, Symbol.term 2]] : List SymSeq).length = 1)]
    rw [c3_expandLoop_none (fuel + 1) _ []
      ⟨[Symbol.nonterm ntT, Symbol.term 1], by decide,
        [Symbol.term 1], Or.inr rfl⟩]

theorem c3_seedLoop_none (fuel : Nat) (stack : List SymSeq) :
    seedLoop fuel ctxIndirect
      [[Symbol.nonterm ntT, Symbol.term 1], [Symbol.nonterm ntT, Symbol.term 2]]
      stack = none := by
  rcases fuel with _ | fuel
  · rfl
  · have hsw : (sweep ctxIndirect [Symbol.nonterm ntT, Symbol.term 1]
        [[Symbol.nonterm ntT, Symbol.term 2]]).colliders =
        [[Symbol.nonterm ntT, Symbol.term 1],
         [Symbol.nonterm ntT, Symbol.term 2]] := by decide
    unfold seedLoop
    dsimp only
    rw [hsw, c3_dsF_none]

theorem c3_hcF_none (fuel : Nat) (stack : List SymSeq) :
    hcF fuel ctxIndirect
      [[Symbol.nonterm ntT, Symbol.term 1], [Symbol.nonterm ntT, Symbol.term 2]]
      stack = none := by
  rcases fuel with _ | fuel
  · rfl
  · unfold hcF
    exact c3_seedLoop_none fuel stack

theorem c3_left_factor_none (fuel : Nat) :
    left_factor fuel ctxIndirect = none := by
  have h1 : ctxIndirect.keys = [ntS, ntT] := by decide
  have h2 : has_conflict ctxIndirect (ctxIndirect.prodsOf ntS) = true := by
    decide
  have h3 : (ctxIndirect.prodsOf ntS).map (fun p => p.syms) =
      [[Symbol.nonterm ntT, Symbol.term 1],
       [Symbol.nonterm ntT, Symbol.term 2]] := by decide
  unfold left_factor
  rw [h1]
  unfold lfGo
  rw [if_pos h2, h3, c3_hcF_none]

/-- C3: the claim fails — `left_factor` does not terminate on the grammar
`S → A x | A y`, `A → S | t`, which `remove_left_recursion` leaves unchanged
(it has no immediate left recursion).  The breadth-first expansion loop of
`disambiguate` keeps a sequence headed by `S` or `A` in its working set
forever, so no fuel bound suffices; the cycle guard (the stack checked in
`disambiguate`) only protects the `handle_conflict` recursion and is never
even reached. -/
theorem c3_left_factor_diverges :
    ¬ LeftFactorTerminates ctxIndirect ∧
    remove_left_recursion ctxIndirect = ctxIndirect := by
  constructor
  · rintro ⟨fuel, hsome⟩
    rw [c3_left_factor_none fuel] at hsome
    cases hsome
  · decide

/-! The production-set characterization of `rlrStep`, used by the
left-recursion claims: each add-then-remove loop of the rewrite acts as a set
transformation on the duplicate-free production list. -/

theorem foldAR (A : Production → Production) :
    ∀ (items : List Production) (c0 : Context),
      c0.prodList.Nodup →
      (∀ p ∈ items, ∀ q ∈ items, A p ≠ q) →
      ((items.foldl (fun c p =>
          (c.add_production (A p).nt (A p).syms).remove_production p) c0).prodList.Nodup ∧
       (items.foldl (fun c p =>
          (c.add_production (A p).nt (A p).syms).remove_production p) c0).counter =
         c0.counter ∧
       ∀ x, (x ∈ (items.foldl (fun c p =>
          (c.add_production (A p).nt (A p).syms).remove_production p) c0).prodList ↔
          (x ∈ c0.prodList ∧ x ∉ items) ∨ ∃ p ∈ items, x = A p)) := by
  intro items
  induction items with
  | nil =>
    intro c0 hnd _
    exact ⟨hnd, rfl, fun x => by simp⟩
  | cons p rest ih =>
    intro c0 hnd hcond
    simp only [List.foldl_cons]
    have hApp : A p ≠ p := hcond p (List.mem_cons_self p rest) p (List.mem_cons_self p rest)
    have hApr : A p ∉ rest := fun hr =>
      hcond p (List.mem_cons_self p rest) (A p) (List.mem_cons_of_mem p hr) rfl
    set c1 : Context :=
      (c0.add_production (A p).nt (A p).syms).remove_production p with hc1
    have hc1list : c1.prodList = (sinsert (A p) c0.prodList).erase p := rfl
    have hc1nd : c1.prodList.Nodup := by
      rw [hc1list]
      exact (sinsert_nodup hnd).erase p
    have hc1mem : ∀ x, x ∈ c1.prodList ↔ x ≠ p ∧ (x = A p ∨ x ∈ c0.prodList) := by
      intro x
      rw [hc1list, (sinsert_nodup hnd).mem_erase_iff, mem_sinsert]
    have hcond' : ∀ a ∈ rest, ∀ q ∈ rest, A a ≠ q := fun a ha q hq =>
      hcond a (List.mem_cons_of_mem p ha) q (List.mem_cons_of_mem p hq)
    rcases ih c1 hc1nd hcond' with ⟨hnd', hcounter', hmem'⟩
    refine ⟨hnd', hcounter'.trans rfl, fun x => ?_⟩
    rw [hmem' x]
    constructor
    · rintro (⟨hx1, hxr⟩ | ⟨q, hq, rfl⟩)
      · rcases (hc1mem x).mp hx1 with ⟨hxp, rfl | hxc0⟩
        · exact Or.inr ⟨p, List.mem_cons_self p rest, rfl⟩
        · refine Or.inl ⟨hxc0, fun hmem => ?_⟩
          rcases List.mem_cons.mp hmem with e | hr
          · exact hxp e
          · exact hxr hr
      · exact Or.inr ⟨q, List.mem_cons_of_mem p hq, rfl⟩
    · rintro (⟨hxc0, hxpr⟩ | ⟨q, hq, rfl⟩)
      · have hxp : x ≠ p := fun e => hxpr (e ▸ List.mem_cons_self p rest)
        have hxr : x ∉ rest := fun hr => hxpr (List.mem_cons_of_mem p hr)
        exact Or.inl ⟨(hc1mem x).mpr ⟨hxp, Or.inr hxc0⟩, hxr⟩
      · rcases List.mem_cons.mp hq with e | hr
        · exact Or.inl ⟨(hc1mem (A q)).mpr ⟨e ▸ hApp, Or.inl (by rw [e])⟩,
            e ▸ hApr⟩
        · exact Or.inr ⟨q, hr, rfl⟩

theorem anonBelow_ne {n : Nonterm} {c : Nat} (h : anonBelow n c = true) :
    n ≠ Nonterm.anon c := by
  cases n with
  | named k => intro e; cases e
  | anon k =>
    intro e
    injection e with e
    subst e
    exact absurd (of_decide_eq_true h) (Nat.lt_irrefl k)

theorem anonBelowSym_ne {s : Symbol} {c : Nat} (h : anonBelowSym s c = true) :
    s ≠ Symbol.nonterm (Nonterm.anon c) := by
  cases s with
  | term t => intro e; cases e
  | nonterm n =>
    intro e
    injection e with e
    exact anonBelow_ne h e

theorem rlrStep_char (ctx : Context) (nt : Nonterm) (lr : List Production)
    (hnd : ctx.prodList.Nodup)
    (hfr : ∀ p ∈ ctx.prodList, anonBelow p.nt ctx.counter = true ∧
      ∀ s ∈ p.syms, anonBelowSym s ctx.counter = true)
    (hlr : ∀ p, p ∈ lr ↔ p ∈ ctx.prodList ∧
      p.syms.head? = some (Symbol.nonterm p.nt) ∧ p.nt = nt)
    (hnt : anonBelow nt ctx.counter = true) :
    (rlrStep ctx (nt, lr)).counter = ctx.counter + 1 ∧
    (rlrStep ctx (nt, lr)).prodList.Nodup ∧
    ∀ x, x ∈ (rlrStep ctx (nt, lr)).prodList ↔
      (x ∈ ctx.prodList ∧ x.nt ≠ nt) ∨
      (∃ p ∈ ctx.prodList, p.nt = nt ∧
        p.syms.head? ≠ some (Symbol.nonterm nt) ∧
        x = ⟨nt, p.syms ++ [Symbol.nonterm (Nonterm.anon ctx.counter)]⟩) ∨
      (∃ p ∈ lr, x = ⟨Nonterm.anon ctx.counter,
        p.syms.drop 1 ++ [Symbol.nonterm (Nonterm.anon ctx.counter)]⟩) ∨
      x = ⟨Nonterm.anon ctx.counter, []⟩ := by
  have haux_no_owner : ∀ p ∈ ctx.prodList, p.nt ≠ Nonterm.anon ctx.counter :=
    fun p hp => anonBelow_ne (hfr p hp).1
  have haux_no_sym : ∀ p ∈ ctx.prodList,
      Symbol.nonterm (Nonterm.anon ctx.counter) ∉ p.syms :=
    fun p hp hs => anonBelowSym_ne ((hfr p hp).2 _ hs) rfl
  have hntaux : nt ≠ Nonterm.anon ctx.counter := anonBelow_ne hnt
  have cond1 : ∀ p ∈ lr, ∀ q ∈ lr,
      (⟨Nonterm.anon ctx.counter, p.syms.drop 1 ++
        [Symbol.nonterm (Nonterm.anon ctx.counter)]⟩ : Production) ≠ q := by
    intro p _ q hq e
    exact haux_no_owner q ((hlr q).mp hq).1 ((congrArg Production.nt e).symm)
  obtain ⟨h2nd, h2cnt, h2mem⟩ :=
    foldAR (fun p => ⟨Nonterm.anon ctx.counter, p.syms.drop 1 ++
      [Symbol.nonterm (Nonterm.anon ctx.counter)]⟩) lr
      ⟨ctx.prodList, ctx.counter + 1⟩ hnd cond1
  set ctx2 : Context := lr.foldl (fun c p =>
    (c.add_production
      (Production.nt ⟨Nonterm.anon ctx.counter, p.syms.drop 1 ++
        [Symbol.nonterm (Nonterm.anon ctx.counter)]⟩)
      (Production.syms ⟨Nonterm.anon ctx.counter, p.syms.drop 1 ++
        [Symbol.nonterm (Nonterm.anon ctx.counter)]⟩)).remove_production p)
    ⟨ctx.prodList, ctx.counter + 1⟩ with hctx2
  set ctx3 : Context :=
    ctx2.add_production (Nonterm.anon ctx.counter) [] with hctx3
  have h3list : ctx3.prodList =
      sinsert ⟨Nonterm.anon ctx.counter, []⟩ ctx2.prodList := rfl
  have h3nd : ctx3.prodList.Nodup := by
    rw [h3list]; exact sinsert_nodup h2nd
  have h3cnt : ctx3.counter = ctx.counter + 1 := h2cnt
  have h3mem : ∀ x, x ∈ ctx3.prodList ↔
      (x ∈ ctx.prodList ∧ x ∉ lr) ∨
      (∃ p ∈ lr, x = ⟨Nonterm.anon ctx.counter, p.syms.drop 1 ++
        [Symbol.nonterm (Nonterm.anon ctx.counter)]⟩) ∨
      x = ⟨Nonterm.anon ctx.counter, []⟩ := by
    intro x
    rw [h3list, mem_sinsert, h2mem x]
    dsimp only
    constructor
    · rintro (h | h | h)
      · exact Or.inr (Or.inr h)
      · exact Or.inl h
      · exact Or.inr (Or.inl h)
    · rintro (h | h | h)
      · exact Or.inr (Or.inl h)
      · exact Or.inr (Or.inr h)
      · exact Or.inl h
  have hsnap : ∀ p, p ∈ ctx3.prodsOf nt ↔
      p ∈ ctx.prodList ∧ p.nt = nt ∧
      p.syms.head? ≠ some (Symbol.nonterm nt) := by
    intro p
    rw [mem_prodsOf]
    constructor
    · rintro ⟨hp3, hpnt⟩
      rcases (h3mem p).mp hp3 with ⟨hpc, hplr⟩ | ⟨q, _, rfl⟩ | rfl
      · refine ⟨hpc, hpnt, fun hh => ?_⟩
        exact hplr ((hlr p).mpr ⟨hpc, by rw [hpnt]; exact hh, hpnt⟩)
      · exact absurd hpnt hntaux.symm.elim
      · exact absurd hpnt (by simpa using hntaux.symm)
    · rintro ⟨hpc, hpnt, hph⟩
      refine ⟨(h3mem p).mpr (Or.inl ⟨hpc, fun hplr => ?_⟩), hpnt⟩
      rcases (hlr p).mp hplr with ⟨_, hh, he⟩
      exact hph (by rw [← hpnt]; exact hh)
  have hsnapnd : (ctx3.prodsOf nt).Nodup := h3nd.filter _
  have cond2 : ∀ p ∈ ctx3.prodsOf nt, ∀ q ∈ ctx3.prodsOf nt,
      (⟨nt, p.syms ++ [Symbol.nonterm (Nonterm.anon ctx.counter)]⟩ : Production)
        ≠ q := by
    intro p _ q hq e
    have hqc : q ∈ ctx.prodList := ((hsnap q).mp hq).1
    apply haux_no_sym q hqc
    rw [← (congrArg Production.syms e)]
    exact List.mem_append_right _ (List.mem_singleton.mpr rfl)
  obtain ⟨h4nd, h4cnt, h4mem⟩ :=
    foldAR (fun p => ⟨nt, p.syms ++ [Symbol.nonterm (Nonterm.anon ctx.counter)]⟩)
      (ctx3.prodsOf nt) ctx3 h3nd cond2
  refine ⟨h4cnt.trans h3cnt, h4nd, ?_⟩
  intro x
  rw [show (rlrStep ctx (nt, lr)).prodList =
    ((ctx3.prodsOf nt).foldl (fun c p =>
      (c.add_production
        (Production.nt ⟨nt, p.syms ++ [Symbol.nonterm (Nonterm.anon ctx.counter)]⟩)
        (Production.syms ⟨nt, p.syms ++ [Symbol.nonterm (Nonterm.anon ctx.counter)]⟩)).remove_production p)
      ctx3).prodList from rfl]
  rw [h4mem x]
  constructor
  · rintro (⟨hx3, hxsnap⟩ | ⟨p, hp, rfl⟩)
    · rcases (h3mem x).mp hx3 with ⟨hxc, hxlr⟩ | h | h
      · by_cases hxnt : x.nt = nt
        · by_cases hxh : x.syms.head? = some (Symbol.nonterm nt)
          · exact absurd ((hlr x).mpr ⟨hxc, by rw [hxnt]; exact hxh, hxnt⟩) hxlr
          · exact absurd ((hsnap x).mpr ⟨hxc, hxnt, hxh⟩) hxsnap
        · exact Or.inl ⟨hxc, hxnt⟩
      · exact Or.inr (Or.inr (Or.inl h))
      · exact Or.inr (Or.inr (Or.inr h))
    · rcases (hsnap p).mp hp with ⟨hpc, hpnt, hph⟩
      exact Or.inr (Or.inl ⟨p, hpc, hpnt, hph, rfl⟩)
  · rintro (⟨hxc, hxnt⟩ | ⟨p, hpc, hpnt, hph, rfl⟩ | ⟨p, hp, rfl⟩ | rfl)
    · refine Or.inl ⟨(h3mem x).mpr (Or.inl ⟨hxc, fun hxlr => ?_⟩),
        fun hxsnap => hxnt ((hsnap x).mp hxsnap).2.1⟩
      exact hxnt ((hlr x).mp hxlr).2.2
    · refine Or.inr ⟨p, (hsnap p).mpr ⟨hpc, hpnt, hph⟩, rfl⟩
    · refine Or.inl ⟨(h3mem _).mpr (Or.inr (Or.inl ⟨p, hp, rfl⟩)),
        fun hsn => hntaux.symm ((hsnap _).mp hsn).2.1⟩
    · exact Or.inl ⟨(h3mem _).mpr (Or.inr (Or.inr rfl)),
        fun hsn => hntaux.symm ((hsnap _).mp hsn).2.1⟩

theorem anonBelow_mono {n : Nonterm} {c : Nat} (h : anonBelow n c = true) :
    anonBelow n (c + 1) = true := by
  cases n with
  | named k => rfl
  | anon k => exact decide_eq_true (Nat.lt_succ_of_lt (of_decide_eq_true h))

theorem anonBelowSym_mono {s : Symbol} {c : Nat} (h : anonBelowSym s c = true) :
    anonBelowSym s (c + 1) = true := by
  cases s with
  | term t => rfl
  | nonterm n => exact anonBelow_mono h

theorem append_singleton_eq_singleton {α : Type} {l : List α} {a b : α}
    (h : l ++ [a] = [b]) : l = [] ∧ a = b := by
  cases l with
  | nil => simpa using h
  | cons c cs => simp at h

theorem mem_leftRecProds {ctx : Context} {m : Nonterm} {p : Production} :
    p ∈ leftRecProds (ctx.prodsOf m) ↔
      p ∈ ctx.prodList ∧ p.syms.head? = some (Symbol.nonterm p.nt) ∧
      p.nt = m := by
  unfold leftRecProds
  rw [List.mem_filter]
  rw [mem_prodsOf]
  constructor
  · rintro ⟨⟨h1, h2⟩, h3⟩
    exact ⟨h1, of_decide_eq_true h3, h2⟩
  · rintro ⟨h1, h2, h3⟩
    exact ⟨⟨h1, h3⟩, decide_eq_true h2⟩

theorem keys_nodup (ctx : Context) : ctx.keys.Nodup := by
  have : ∀ (l : List Production) (acc : List Nonterm), acc.Nodup →
      (l.foldl (fun acc p => sinsert p.nt acc) acc).Nodup := by
    intro l
    induction l with
    | nil => exact fun acc h => h
    | cons p ps ih => exact fun acc h => ih _ (sinsert_nodup h)
  exact this ctx.prodList [] List.nodup_nil

theorem filterMap_fst_sublist {α β : Type} (f : α → Option (α × β))
    (hf : ∀ a b, f a = some b → b.1 = a) :
    ∀ l : List α, ((l.filterMap f).map Prod.fst).Sublist l := by
  intro l
  induction l with
  | nil => simp
  | cons a l ih =>
    rw [List.filterMap_cons]
    rcases hfa : f a with _ | b
    · exact ih.cons a
    · rw [List.map_cons, hf a b hfa]
      exact ih.cons₂ a

theorem mem_recEntries {ctx : Context} {e : Nonterm × List Production} :
    e ∈ recEntries ctx ↔
      e.1 ∈ ctx.keys ∧ e.2 = leftRecProds (ctx.prodsOf e.1) ∧ e.2 ≠ [] := by
  unfold recEntries
  rw [List.mem_filterMap]
  constructor
  · rintro ⟨m, hm, hf⟩
    by_cases hemp : (leftRecProds (ctx.prodsOf m)).isEmpty
    · rw [if_pos hemp] at hf; cases hf
    · rw [if_neg hemp] at hf
      injection hf with hf
      subst hf
      exact ⟨hm, rfl, fun h =>
        hemp (by rw [show leftRecProds (ctx.prodsOf m) = [] from h]; rfl)⟩
  · rintro ⟨hm, hrep, hne⟩
    refine ⟨e.1, hm, ?_⟩
    have hemp : ¬ (leftRecProds (ctx.prodsOf e.1)).isEmpty := by
      intro h
      rcases hl : leftRecProds (ctx.prodsOf e.1) with _ | ⟨q, qs⟩
      · exact hne (by rw [hrep, hl])
      · rw [hl] at h; cases h
    rw [if_neg hemp, ← hrep]

theorem recEntries_fst_nodup (ctx : Context) :
    ((recEntries ctx).map Prod.fst).Nodup := by
  refine (keys_nodup ctx).sublist ?_
  unfold recEntries
  refine filterMap_fst_sublist _ ?_ ctx.keys
  intro a b hf
  by_cases hemp : (leftRecProds (ctx.prodsOf a)).isEmpty
  · rw [if_pos hemp] at hf; cases hf
  · rw [if_neg hemp] at hf
    injection hf with hf
    rw [← hf]

theorem rlr_fold_no_leftrec :
    ∀ (es : List (Nonterm × List Production)) (g : Context),
      g.prodList.Nodup →
      (∀ p ∈ g.prodList, anonBelow p.nt g.counter = true ∧
        ∀ s ∈ p.syms, anonBelowSym s g.counter = true) →
      (∀ p ∈ g.prodList, p.syms ≠ [Symbol.nonterm p.nt]) →
      (∀ p ∈ g.prodList, p.syms.head? = some (Symbol.nonterm p.nt) →
        ∃ e ∈ es, p.nt = e.1) →
      (∀ e ∈ es, anonBelow e.1 g.counter = true ∧
        ∀ p, p ∈ e.2 ↔ p ∈ g.prodList ∧
          p.syms.head? = some (Symbol.nonterm p.nt) ∧ p.nt = e.1) →
      (es.map Prod.fst).Nodup →
      ∀ p ∈ (es.foldl rlrStep g).prodList,
        p.syms.head? ≠ some (Symbol.nonterm p.nt) := by
  intro es
  induction es with
  | nil =>
    intro g _ _ _ hL _ _ p hp hhead
    rcases hL p hp hhead with ⟨e, he, _⟩
    exact absurd he (List.not_mem_nil e)
  | cons e rest ih =>
    rcases e with ⟨nt, lr⟩
    intro g hnd hfr hD hL hE hK
    have hEh := hE (nt, lr) (List.mem_cons_self _ _)
    have hlr : ∀ p, p ∈ lr ↔ p ∈ g.prodList ∧
        p.syms.head? = some (Symbol.nonterm p.nt) ∧ p.nt = nt := hEh.2
    have hnt : anonBelow nt g.counter = true := hEh.1
    obtain ⟨hcnt', hnd', hmem'⟩ := rlrStep_char g nt lr hnd hfr hlr hnt
    rw [List.foldl_cons]
    set g' := rlrStep g (nt, lr) with hg'
    have hntaux : nt ≠ Nonterm.anon g.counter := anonBelow_ne hnt
    have haux_no_sym : ∀ p ∈ g.prodList,
        Symbol.nonterm (Nonterm.anon g.counter) ∉ p.syms :=
      fun p hp hs => anonBelowSym_ne ((hfr p hp).2 _ hs) rfl
    -- the four production shapes of g'
    have hshape := hmem'
    refine ih g' hnd' ?F ?D ?L ?E ?K
    · -- freshness at the bumped counter
      intro p hp
      rw [hcnt']
      rcases (hshape p).mp hp with ⟨hpg, _⟩ | ⟨q, hq, _, _, rfl⟩ |
        ⟨q, hq, rfl⟩ | rfl
      · exact ⟨anonBelow_mono (hfr p hpg).1,
          fun s hs => anonBelowSym_mono ((hfr p hpg).2 s hs)⟩
      · refine ⟨anonBelow_mono hnt, fun s hs => ?_⟩
        rcases List.mem_append.mp hs with hs | hs
        · exact anonBelowSym_mono ((hfr q hq).2 s hs)
        · rw [List.mem_singleton.mp hs]
          exact decide_eq_true (Nat.lt_succ_self _)
      · have hqg : q ∈ g.prodList := ((hlr q).mp hq).1
        refine ⟨decide_eq_true (Nat.lt_succ_self _), fun s hs => ?_⟩
        rcases List.mem_append.mp hs with hs | hs
        · exact anonBelowSym_mono ((hfr q hqg).2 s (List.mem_of_mem_drop hs))
        · rw [List.mem_singleton.mp hs]
          exact decide_eq_true (Nat.lt_succ_self _)
      · exact ⟨decide_eq_true (Nat.lt_succ_self _), by intro s hs; cases hs⟩
    · -- no degenerate self-production
      intro p hp
      rcases (hshape p).mp hp with ⟨hpg, _⟩ | ⟨q, hq, hqnt, hqh, rfl⟩ |
        ⟨q, hq, rfl⟩ | rfl
      · exact hD p hpg
      · intro he
        rcases append_singleton_eq_singleton he with ⟨hqs, hax⟩
        injection hax with hax
        exact hntaux hax.symm
      · intro he
        rcases append_singleton_eq_singleton he with ⟨hqs, _⟩
        rcases (hlr q).mp hq with ⟨hqg, hqh, hqnt⟩
        rcases hs : q.syms with _ | ⟨s0, tail⟩
        · rw [hs] at hqh; cases hqh
        · rw [hs] at hqs
          have : tail = [] := by simpa using hqs
          rw [hs] at hqh
          injection hqh with hqh0
          apply hD q hqg
          rw [hs, this, hqh0, hqnt]
      · intro he; cases he
    · -- remaining left-recursive productions belong to the rest entries
      intro p hp hhead
      rcases (hshape p).mp hp with ⟨hpg, hpnt⟩ | ⟨q, hq, hqnt, hqh, rfl⟩ |
        ⟨q, hq, rfl⟩ | rfl
      · rcases hL p hpg hhead with ⟨e, he, hpe⟩
        rcases List.mem_cons.mp he with rfl | he
        · exact absurd hpe hpnt
        · exact ⟨e, he, hpe⟩
      · exfalso
        rcases hs : q.syms with _ | ⟨s0, tail⟩
        · rw [hs] at hhead
          simp only [List.nil_append, List.head?_cons, Option.some.injEq] at hhead
          injection hhead with hh
          exact hntaux hh.symm
        · rw [hs] at hhead
          simp only [List.cons_append, List.head?_cons, Option.some.injEq] at hhead
          apply hqh
          rw [hs, List.head?_cons, hhead]
      · exfalso
        rcases (hlr q).mp hq with ⟨hqg, hqh, hqnt⟩
        rcases hs : q.syms with _ | ⟨s0, tail⟩
        · rw [hs] at hqh; cases hqh
        · have htail : tail ≠ [] := by
            intro he
            rw [hs] at hqh
            injection hqh with hqh0
            apply hD q hqg
            rw [hs, he, hqh0, hqnt]
          rcases ht : tail with _ | ⟨u, us⟩
          · exact htail ht
          · rw [hs, ht] at hhead
            simp only [List.drop_succ_cons, List.drop_zero, List.cons_append,
              List.head?_cons, Option.some.injEq] at hhead
            apply haux_no_sym q hqg
            rw [hs, ht, hhead]
            exact List.mem_cons_of_mem _ (List.mem_cons_self _ _)
      · simp at hhead
    · -- the rest entries still describe their left-recursive sets
      intro e' he'
      have hEr := hE e' (List.mem_cons_of_mem _ he')
      have hne : e'.1 ≠ nt := by
        intro he
        rw [List.map_cons] at hK
        have hmem : e'.1 ∈ rest.map Prod.fst := List.mem_map_of_mem Prod.fst he'
        rw [he] at hmem
        exact (List.nodup_cons.mp hK).1 hmem
      have hneaux : e'.1 ≠ Nonterm.anon g.counter := anonBelow_ne hEr.1
      refine ⟨by rw [hcnt']; exact anonBelow_mono hEr.1, fun p => ?_⟩
      rw [hEr.2 p]
      constructor
      · rintro ⟨hpg, hph, hpnt⟩
        exact ⟨(hshape p).mpr (Or.inl ⟨hpg, by rw [hpnt]; exact hne⟩), hph, hpnt⟩
      · rintro ⟨hpg', hph, hpnt⟩
        rcases (hshape p).mp hpg' with ⟨hpg, _⟩ | ⟨q, _, _, _, rfl⟩ |
          ⟨q, _, rfl⟩ | rfl
        · exact ⟨hpg, hph, hpnt⟩
        · exact absurd hpnt.symm hne
        · exact absurd hpnt.symm hneaux
        · exact absurd hpnt.symm hneaux
    · rw [List.map_cons] at hK
      exact (List.nodup_cons.mp hK).2

/-- C2 (amended): after `remove_left_recursion`, no production of any
nonterminal — named or auxiliary — has the nonterminal that owns it as its
first symbol, provided the input grammar is duplicate-free, counter-fresh,
and contains no degenerate production whose symbol sequence is exactly its
owning nonterminal (`nt → nt`); such a degenerate production yields the
left-recursive auxiliary production `aux → aux` (see the counterexample). -/
theorem c2_no_immediate_left_recursion (ctx : Context)
    (hnd : ctx.prodList.Nodup) (hF : ctx.Fresh)
    (hD : ∀ p ∈ ctx.prodList, p.syms ≠ [Symbol.nonterm p.nt]) :
    ∀ p ∈ (remove_left_recursion ctx).prodList,
      p.syms.head? ≠ some (Symbol.nonterm p.nt) := by
  unfold remove_left_recursion
  refine rlr_fold_no_leftrec (recEntries ctx) ctx hnd hF hD ?_ ?_
    (recEntries_fst_nodup ctx)
  · intro p hp hhead
    refine ⟨(p.nt, leftRecProds (ctx.prodsOf p.nt)), ?_, rfl⟩
    rw [mem_recEntries]
    refine ⟨mem_keys.mpr ⟨p, hp, rfl⟩, rfl, fun he => ?_⟩
    have : p ∈ leftRecProds (ctx.prodsOf p.nt) :=
      mem_leftRecProds.mpr ⟨hp, hhead, rfl⟩
    rw [show leftRecProds (ctx.prodsOf p.nt) = [] from he] at this
    exact absurd this (List.not_mem_nil p)
  · intro e he
    rcases mem_recEntries.mp he with ⟨hk, hrep, _⟩
    constructor
    · rcases mem_keys.mp hk with ⟨p, hp, hpnt⟩
      exact hpnt ▸ (hF p hp).1
    · intro p
      rw [hrep, mem_leftRecProds]

/-- C2 witness: the amended statement applied to the scenario grammar. -/
theorem c2_no_immediate_left_recursion_witness :
    ctxScenario.prodList.Nodup ∧ ctxScenario.Fresh ∧
    (∀ p ∈ ctxScenario.prodList, p.syms ≠ [Symbol.nonterm p.nt]) ∧
    (∀ p ∈ (remove_left_recursion ctxScenario).prodList,
      p.syms.head? ≠ some (Symbol.nonterm p.nt)) :=
  ⟨by decide, by decide, by decide,
   c2_no_immediate_left_recursion ctxScenario (by decide) (by decide)
     (by decide)⟩

/-! Base lemmas about derivations, for the language-preservation claim. -/

theorem Derives.refl {ctx : Context} (s : List Symbol) : Derives ctx s s :=
  ⟨0, DerivesN.refl s⟩

theorem derivesN_comp {ctx : Context} :
    ∀ {n m : Nat} {s t u : List Symbol},
      DerivesN ctx n s t → DerivesN ctx m t u → DerivesN ctx (n + m) s u := by
  intro n m s t u h1
  induction h1 with
  | refl s =>
    intro h2
    rw [Nat.zero_add]
    exact h2
  | head hst hder ih =>
    intro h2
    rw [Nat.succ_add]
    exact DerivesN.head hst (ih h2)

theorem Derives.comp {ctx : Context} {s t u : List Symbol}
    (h1 : Derives ctx s t) (h2 : Derives ctx t u) : Derives ctx s u := by
  rcases h1 with ⟨n, h1⟩
  rcases h2 with ⟨m, h2⟩
  exact ⟨n + m, derivesN_comp h1 h2⟩

theorem Step.context {ctx : Context} {s t : List Symbol}
    (h : Step ctx s t) (l r : List Symbol) :
    Step ctx (l ++ s ++ r) (l ++ t ++ r) := by
  rcases h with ⟨pre, post, p, hp⟩
  have := @Step.mk ctx (l ++ pre) (post ++ r) p hp
  simpa [List.append_assoc] using this

theorem DerivesN.append_context {ctx : Context} {n : Nat} {s t : List Symbol}
    (h : DerivesN ctx n s t) (l r : List Symbol) :
    DerivesN ctx n (l ++ s ++ r) (l ++ t ++ r) := by
  induction h with
  | refl s => exact DerivesN.refl _
  | head hst _ ih => exact DerivesN.head (hst.context l r) ih

theorem Derives.append_left {ctx : Context} {s t : List Symbol}
    (h : Derives ctx s t) (l : List Symbol) :
    Derives ctx (l ++ s) (l ++ t) := by
  rcases h with ⟨n, h⟩
  exact ⟨n, by simpa using h.append_context l []⟩

theorem Derives.append_right {ctx : Context} {s t : List Symbol}
    (h : Derives ctx s t) (r : List Symbol) :
    Derives ctx (s ++ r) (t ++ r) := by
  rcases h with ⟨n, h⟩
  exact ⟨n, by simpa using h.append_context [] r⟩

theorem Derives.append_both {ctx : Context} {s t u v : List Symbol}
    (h1 : Derives ctx s t) (h2 : Derives ctx u v) :
    Derives ctx (s ++ u) (t ++ v) :=
  (h1.append_right u).comp (h2.append_left t)

theorem Derives.head {ctx : Context} {s t u : List Symbol}
    (hst : Step ctx s t) (h : Derives ctx t u) : Derives ctx s u := by
  rcases h with ⟨n, h⟩
  exact ⟨n + 1, DerivesN.head hst h⟩

theorem step_production {ctx : Context} {p : Production}
    (hp : p ∈ ctx.prodList) :
    Step ctx [Symbol.nonterm p.nt] p.syms := by
  have := @Step.mk ctx [] [] p hp
  simpa using this

theorem termStr_append (w v : List Term) :
    TermStr (w ++ v) = TermStr w ++ TermStr v :=
  List.map_append Symbol.term w v

theorem termStr_inj {w v : List Term} (h : TermStr w = TermStr v) : w = v := by
  have : Function.Injective Symbol.term := fun a b e => by injection e
  exact List.map_injective_iff.mpr this h

theorem nonterm_not_mem_termStr {m : Nonterm} {w : List Term} :
    Symbol.nonterm m ∉ TermStr w := by
  intro h
  rcases List.mem_map.mp h with ⟨a, _, e⟩
  injection e

theorem termStr_no_step {ctx : Context} {w : List Term} {v : List Symbol} :
    ¬ Step ctx (TermStr w) v := by
  intro h
  rcases hs : TermStr w with u
  rw [hs] at h
  rcases h with ⟨pre, post, p, hp⟩
  apply nonterm_not_mem_termStr (m := p.nt) (w := w)
  rw [hs]
  exact List.mem_append_left _ (List.mem_append_right _ (List.mem_singleton.mpr rfl))

theorem derivesN_termStr {ctx : Context} {n : Nat} {w : List Term}
    {v : List Symbol} (h : DerivesN ctx n (TermStr w) v) :
    v = TermStr w ∧ n = 0 := by
  cases h with
  | refl => exact ⟨rfl, rfl⟩
  | head hst _ => exact absurd hst termStr_no_step

theorem derivesN_nil {ctx : Context} {n : Nat} {v : List Symbol}
    (h : DerivesN ctx n [] v) : v = [] ∧ n = 0 := by
  have := @derivesN_termStr ctx n [] v
  exact this h

theorem split_middle {α : Type} :
    ∀ (s t pre post : List α) (x : α),
      s ++ t = pre ++ x :: post →
      (∃ post', s = pre ++ x :: post' ∧ post = post' ++ t) ∨
      (∃ pre', t = pre' ++ x :: post ∧ pre = s ++ pre') := by
  intro s
  induction s with
  | nil =>
    intro t pre post x h
    exact Or.inr ⟨pre, by simpa using h, by simp⟩
  | cons a s' ih =>
    intro t pre post x h
    cases pre with
    | nil =>
      simp only [List.nil_append, List.cons_append, List.cons.injEq] at h
      exact Or.inl ⟨s', by rw [h.1]; simp, h.2.symm⟩
    | cons b pre' =>
      simp only [List.cons_append, List.cons.injEq] at h
      rcases ih t pre' post x h.2 with ⟨post', e1, e2⟩ | ⟨pre'', e1, e2⟩
      · exact Or.inl ⟨post', by rw [h.1, e1]; rfl, e2⟩
      · exact Or.inr ⟨pre'', e1, by rw [h.1, e2]; rfl⟩

theorem sandwich_singleton {α : Type} :
    ∀ (pre post : List α) (x y : α), pre ++ [x] ++ post = [y] →
      pre = [] ∧ post = [] ∧ x = y := by
  intro pre post x y h
  cases pre with
  | nil =>
    simp only [List.nil_append, List.cons_append, List.nil_append,
      List.cons.injEq] at h
    rcases h with ⟨rfl, h⟩
    exact ⟨rfl, h, rfl⟩
  | cons a pre' =>
    simp only [List.cons_append, List.cons.injEq] at h
    exact absurd h.2 (by simp)

theorem derivesN_split {ctx : Context} :
    ∀ {n : Nat} {X Y : List Symbol}, DerivesN ctx n X Y →
      ∀ (s t : List Symbol) (w : List Term), X = s ++ t → Y = TermStr w →
      ∃ n₁ n₂ w₁ w₂, n₁ + n₂ = n ∧ w = w₁ ++ w₂ ∧
        DerivesN ctx n₁ s (TermStr w₁) ∧ DerivesN ctx n₂ t (TermStr w₂) := by
  intro n X Y h
  induction h with
  | refl X' =>
    intro s t w hX hY
    rw [hX] at hY
    rcases List.append_eq_map_iff.mp hY with ⟨w₁, w₂, rfl, hs, ht⟩
    refine ⟨0, 0, w₁, w₂, rfl, rfl, ?_, ?_⟩
    · rw [← hs]; exact DerivesN.refl _
    · rw [← ht]; exact DerivesN.refl _
  | head hst hder ih =>
    intro s t w hX hY
    rcases hst with ⟨pre, post, p, hp⟩
    have hX' : s ++ t = pre ++ Symbol.nonterm p.nt :: post := by
      rw [← hX]
      simp [List.append_assoc]
    rcases split_middle s t pre post (Symbol.nonterm p.nt) hX' with
      ⟨post', e1, e2⟩ | ⟨pre', e1, e2⟩
    · have hT : pre ++ p.syms ++ post = (pre ++ p.syms ++ post') ++ t := by
        rw [e2]
        simp [List.append_assoc]
      rcases ih (pre ++ p.syms ++ post') t w hT hY with
        ⟨n₁, n₂, w₁, w₂, hsum, hw, d₁, d₂⟩
      refine ⟨n₁ + 1, n₂, w₁, w₂, by omega, hw, ?_, d₂⟩
      refine DerivesN.head ?_ d₁
      have hstep := @Step.mk ctx pre post' p hp
      have he : s = pre ++ [Symbol.nonterm p.nt] ++ post' := by
        rw [e1]; simp [List.append_assoc]
      rw [he]
      exact hstep
    · have hT : pre ++ p.syms ++ post = s ++ (pre' ++ p.syms ++ post) := by
        rw [e2]
        simp [List.append_assoc]
      rcases ih s (pre' ++ p.syms ++ post) w hT hY with
        ⟨n₁, n₂, w₁, w₂, hsum, hw, d₁, d₂⟩
      refine ⟨n₁, n₂ + 1, w₁, w₂, by omega, hw, d₁, ?_⟩
      refine DerivesN.head ?_ d₂
      have hstep := @Step.mk ctx pre' post p hp
      have he : t = pre' ++ [Symbol.nonterm p.nt] ++ post := by
        rw [e1]; simp [List.append_assoc]
      rw [he]
      exact hstep

theorem derivesN_nonterm_inv_aux {ctx : Context} :
    ∀ {n : Nat} {X Y : List Symbol}, DerivesN ctx n X Y →
      ∀ (m : Nonterm) (w : List Term),
        X = [Symbol.nonterm m] → Y = TermStr w →
        ∃ p ∈ ctx.prodList, p.nt = m ∧
          ∃ n', n = n' + 1 ∧ DerivesN ctx n' p.syms (TermStr w) := by
  intro n X Y h
  cases h with
  | refl =>
    intro m w hX hY
    rw [hX] at hY
    exact absurd (hY ▸ List.mem_singleton.mpr rfl)
      (nonterm_not_mem_termStr (m := m) (w := w))
  | head hst hder =>
    intro m w hX hY
    rcases hst with ⟨pre, post, p, hp⟩
    rcases sandwich_singleton pre post _ _ hX with ⟨rfl, rfl, hx⟩
    injection hx with hx
    refine ⟨p, hp, hx, _, rfl, ?_⟩
    rw [← hY]
    simpa using hder

theorem derivesN_nonterm_inv {ctx : Context} {n : Nat} {m : Nonterm}
    {w : List Term}
    (h : DerivesN ctx n [Symbol.nonterm m] (TermStr w)) :
    ∃ p ∈ ctx.prodList, p.nt = m ∧
      ∃ n', n = n' + 1 ∧ DerivesN ctx n' p.syms (TermStr w) :=
  derivesN_nonterm_inv_aux h m w rfl rfl

/-! The two derivation simulations between a grammar and its rewriting for
one left-recursive nonterminal `nt` with fresh auxiliary `aux`. -/

theorem sim_fwd (g g' : Context) (nt aux : Nonterm)
    (H1 : aux ≠ nt)
    (H2 : ∀ p ∈ g.prodList, p.nt ≠ aux ∧ Symbol.nonterm aux ∉ p.syms)
    (H3 : ∀ q, q ∈ g'.prodList ↔
      (q ∈ g.prodList ∧ q.nt ≠ nt) ∨
      (∃ p ∈ g.prodList, p.nt = nt ∧
        p.syms.head? ≠ some (Symbol.nonterm nt) ∧
        q = ⟨nt, p.syms ++ [Symbol.nonterm aux]⟩) ∨
      (∃ p ∈ g.prodList, p.nt = nt ∧
        p.syms.head? = some (Symbol.nonterm nt) ∧
        q = ⟨aux, p.syms.drop 1 ++ [Symbol.nonterm aux]⟩) ∨
      q = ⟨aux, []⟩) :
    ∀ N : Nat,
      (∀ n, n ≤ N → ∀ (w v : List Term),
        DerivesN g n [Symbol.nonterm nt] (TermStr w) →
        Derives g' [Symbol.nonterm aux] (TermStr v) →
        Derives g' [Symbol.nonterm nt] (TermStr (w ++ v))) ∧
      (∀ n, n ≤ N → ∀ s : List Symbol, Symbol.nonterm aux ∉ s →
        ∀ w : List Term, DerivesN g n s (TermStr w) →
        Derives g' s (TermStr w)) := by
  intro N
  induction N using Nat.strong_induction_on with
  | _ N ihN =>
    have hA : ∀ n, n ≤ N → ∀ (w v : List Term),
        DerivesN g n [Symbol.nonterm nt] (TermStr w) →
        Derives g' [Symbol.nonterm aux] (TermStr v) →
        Derives g' [Symbol.nonterm nt] (TermStr (w ++ v)) := by
      intro n hn w v hder hv
      rcases derivesN_nonterm_inv hder with ⟨p, hpg, hpnt, n', rfl, hder'⟩
      by_cases hph : p.syms.head? = some (Symbol.nonterm nt)
      · rcases hsy : p.syms with _ | ⟨s0, tail⟩
        · rw [hsy] at hph; cases hph
        · have hs0 : s0 = Symbol.nonterm nt := by
            rw [hsy] at hph
            injection hph
          rw [hsy, hs0] at hder'
          have hder'' : DerivesN g n' ([Symbol.nonterm nt] ++ tail) (TermStr w) :=
            hder'
          rcases derivesN_split hder'' [Symbol.nonterm nt] tail w rfl rfl with
            ⟨n₁, n₂, w₁, w₂, hsum, hw, d₁, d₂⟩
          have htailaux : Symbol.nonterm aux ∉ tail := by
            intro hmem
            exact (H2 p hpg).2 (by rw [hsy]; exact List.mem_cons_of_mem _ hmem)
          have hd₂ : Derives g' tail (TermStr w₂) :=
            (ihN n₂ (by omega)).2 n₂ le_rfl tail htailaux w₂ d₂
          have hq : (⟨aux, tail ++ [Symbol.nonterm aux]⟩ : Production) ∈
              g'.prodList := by
            refine (H3 _).mpr (Or.inr (Or.inr (Or.inl ⟨p, hpg, hpnt, hph, ?_⟩)))
            rw [hsy]
            rfl
          have hstep : Step g' [Symbol.nonterm aux]
              (tail ++ [Symbol.nonterm aux]) := by
            have hsp := step_production hq
            simpa using hsp
          have hv' : Derives g' [Symbol.nonterm aux] (TermStr (w₂ ++ v)) := by
            refine Derives.head hstep ?_
            rw [termStr_append]
            exact Derives.append_both hd₂ hv
          have hres := (ihN n₁ (by omega)).1 n₁ le_rfl w₁ (w₂ ++ v) d₁ hv'
          rw [hw, List.append_assoc]
          exact hres
      · have hq : (⟨nt, p.syms ++ [Symbol.nonterm aux]⟩ : Production) ∈
            g'.prodList :=
          (H3 _).mpr (Or.inr (Or.inl ⟨p, hpg, hpnt, hph, rfl⟩))
        have hsaux : Symbol.nonterm aux ∉ p.syms := (H2 p hpg).2
        have hder₂ : Derives g' p.syms (TermStr w) :=
          (ihN n' (by omega)).2 n' le_rfl p.syms hsaux w hder'
        have hstep : Step g' [Symbol.nonterm nt]
            (p.syms ++ [Symbol.nonterm aux]) := by
          have hsp := step_production hq
          simpa using hsp
        refine Derives.head hstep ?_
        rw [termStr_append]
        exact Derives.append_both hder₂ hv
    have hB : ∀ s : List Symbol, Symbol.nonterm aux ∉ s →
        ∀ n, n ≤ N → ∀ w, DerivesN g n s (TermStr w) →
        Derives g' s (TermStr w) := by
      intro s
      induction s with
      | nil =>
        intro _ n _ w hder
        have hder' : DerivesN g n (TermStr []) (TermStr w) := hder
        have hw : w = [] := termStr_inj (derivesN_termStr hder').1
        rw [hw]
        exact Derives.refl _
      | cons σ s' ihs =>
        intro hauxs n hn w hder
        have hder' : DerivesN g n ([σ] ++ s') (TermStr w) := hder
        rcases derivesN_split hder' [σ] s' w rfl rfl with
          ⟨n₁, n₂, w₁, w₂, hsum, hw, d₁, d₂⟩
        have haux' : Symbol.nonterm aux ∉ s' :=
          fun h => hauxs (List.mem_cons_of_mem _ h)
        have hd₂ : Derives g' s' (TermStr w₂) := ihs haux' n₂ (by omega) w₂ d₂
        have hd₁ : Derives g' [σ] (TermStr w₁) := by
          cases σ with
          | term a =>
            have d₁' : DerivesN g n₁ (TermStr [a]) (TermStr w₁) := d₁
            have hw1 : w₁ = [a] := termStr_inj (derivesN_termStr d₁').1
            rw [hw1]
            exact Derives.refl _
          | nonterm m =>
            by_cases hm : m = nt
            · subst hm
              have hauxeps : Derives g' [Symbol.nonterm aux] (TermStr []) := by
                have hq : (⟨aux, []⟩ : Production) ∈ g'.prodList :=
                  (H3 _).mpr (Or.inr (Or.inr (Or.inr rfl)))
                have hstep : Step g' [Symbol.nonterm aux] [] := by
                  have hsp := step_production hq
                  simpa using hsp
                exact Derives.head hstep (Derives.refl _)
              have hres := hA n₁ (by omega) w₁ [] d₁ hauxeps
              simpa using hres
            · rcases derivesN_nonterm_inv d₁ with ⟨q, hqg, hqm, n₁', hn₁, hderq⟩
              have hq' : q ∈ g'.prodList :=
                (H3 q).mpr (Or.inl ⟨hqg, by rw [hqm]; exact hm⟩)
              have hqaux : Symbol.nonterm aux ∉ q.syms := (H2 q hqg).2
              have hdq : Derives g' q.syms (TermStr w₁) :=
                (ihN n₁' (by omega)).2 n₁' le_rfl q.syms hqaux w₁ hderq
              refine Derives.head ?_ hdq
              have hsp := step_production hq'
              rw [hqm] at hsp
              exact hsp
        rw [hw, termStr_append]
        exact Derives.append_both hd₁ hd₂
    exact ⟨hA, fun n hn s hs w hder => hB s hs n hn w hder⟩

theorem sim_bwd (g g' : Context) (nt aux : Nonterm)
    (H1 : aux ≠ nt)
    (H2 : ∀ p ∈ g.prodList, p.nt ≠ aux ∧ Symbol.nonterm aux ∉ p.syms)
    (H3 : ∀ q, q ∈ g'.prodList ↔
      (q ∈ g.prodList ∧ q.nt ≠ nt) ∨
      (∃ p ∈ g.prodList, p.nt = nt ∧
        p.syms.head? ≠ some (Symbol.nonterm nt) ∧
        q = ⟨nt, p.syms ++ [Symbol.nonterm aux]⟩) ∨
      (∃ p ∈ g.prodList, p.nt = nt ∧
        p.syms.head? = some (Symbol.nonterm nt) ∧
        q = ⟨aux, p.syms.drop 1 ++ [Symbol.nonterm aux]⟩) ∨
      q = ⟨aux, []⟩) :
    ∀ N : Nat,
      (∀ n, n ≤ N → ∀ w, DerivesN g' n [Symbol.nonterm nt] (TermStr w) →
        Derives g [Symbol.nonterm nt] (TermStr w)) ∧
      (∀ n, n ≤ N → ∀ v, DerivesN g' n [Symbol.nonterm aux] (TermStr v) →
        ∀ u, Derives g [Symbol.nonterm nt] (TermStr u) →
        Derives g [Symbol.nonterm nt] (TermStr (u ++ v))) ∧
      (∀ n, n ≤ N → ∀ s, Symbol.nonterm aux ∉ s → ∀ w,
        DerivesN g' n s (TermStr w) → Derives g s (TermStr w)) := by
  intro N
  induction N using Nat.strong_induction_on with
  | _ N ihN =>
    have hII : ∀ n, n ≤ N → ∀ v,
        DerivesN g' n [Symbol.nonterm aux] (TermStr v) →
        ∀ u, Derives g [Symbol.nonterm nt] (TermStr u) →
        Derives g [Symbol.nonterm nt] (TermStr (u ++ v)) := by
      intro n hn v hder u hu
      rcases derivesN_nonterm_inv hder with ⟨q, hqg', hqaux, n', rfl, hder'⟩
      rcases (H3 q).mp hqg' with ⟨hqg, _⟩ | ⟨p, hpg, hpnt, hph, rfl⟩ |
        ⟨p, hpg, hpnt, hph, rfl⟩ | rfl
      · exact absurd hqaux ((H2 q hqg).1)
      · exact absurd hqaux.symm H1
      · rcases hsy : p.syms with _ | ⟨s0, tail⟩
        · rw [hsy] at hph; cases hph
        · have hs0 : s0 = Symbol.nonterm nt := by
            rw [hsy] at hph
            injection hph
          have hder'' : DerivesN g' n' (tail ++ [Symbol.nonterm aux])
              (TermStr v) := by
            have he : Production.syms ⟨aux, p.syms.drop 1 ++ [Symbol.nonterm aux]⟩ =
                tail ++ [Symbol.nonterm aux] := by
              rw [hsy]
              rfl
            rw [← he]
            exact hder'
          rcases derivesN_split hder'' tail [Symbol.nonterm aux] v rfl rfl with
            ⟨n₁, n₂, v₁, v₂, hsum, hv, d₁, d₂⟩
          have htailaux : Symbol.nonterm aux ∉ tail := by
            intro hmem
            exact (H2 p hpg).2 (by rw [hsy]; exact List.mem_cons_of_mem _ hmem)
          have hd₁ : Derives g tail (TermStr v₁) :=
            (ihN n₁ (by omega)).2.2 n₁ le_rfl tail htailaux v₁ d₁
          have hu' : Derives g [Symbol.nonterm nt] (TermStr (u ++ v₁)) := by
            have hstep : Step g [Symbol.nonterm nt]
                ([Symbol.nonterm nt] ++ tail) := by
              have hsp := step_production hpg
              rw [hpnt, hsy, hs0] at hsp
              exact hsp
            refine Derives.head hstep ?_
            rw [termStr_append]
            exact Derives.append_both hu hd₁
          have hres := (ihN n₂ (by omega)).2.1 n₂ le_rfl v₂ d₂ (u ++ v₁) hu'
          rw [hv, ← List.append_assoc]
          exact hres
      · have hder'' : DerivesN g' n' (TermStr []) (TermStr v) := hder'
        have hv : v = [] := termStr_inj (derivesN_termStr hder'').1
        rw [hv, List.append_nil]
        exact hu
    have hI : ∀ n, n ≤ N → ∀ w,
        DerivesN g' n [Symbol.nonterm nt] (TermStr w) →
        Derives g [Symbol.nonterm nt] (TermStr w) := by
      intro n hn w hder
      rcases derivesN_nonterm_inv hder with ⟨q, hqg', hqnt, n', rfl, hder'⟩
      rcases (H3 q).mp hqg' with ⟨hqg, hqne⟩ | ⟨p, hpg, hpnt, hph, rfl⟩ |
        ⟨p, hpg, hpnt, hph, rfl⟩ | rfl
      · exact absurd hqnt hqne
      · have hder'' : DerivesN g' n' (p.syms ++ [Symbol.nonterm aux])
            (TermStr w) := hder'
        rcases derivesN_split hder'' p.syms [Symbol.nonterm aux] w rfl rfl with
          ⟨n₁, n₂, w₁, w₂, hsum, hw, d₁, d₂⟩
        have hsaux : Symbol.nonterm aux ∉ p.syms := (H2 p hpg).2
        have hd₁ : Derives g p.syms (TermStr w₁) :=
          (ihN n₁ (by omega)).2.2 n₁ le_rfl p.syms hsaux w₁ d₁
        have hu : Derives g [Symbol.nonterm nt] (TermStr w₁) := by
          refine Derives.head ?_ hd₁
          have hsp := step_production hpg
          rw [hpnt] at hsp
          exact hsp
        have hres := (ihN n₂ (by omega)).2.1 n₂ le_rfl w₂ d₂ w₁ hu
        rw [hw]
        exact hres
      · exact absurd hqnt H1
      · exact absurd hqnt H1
    have hIII : ∀ s : List Symbol, Symbol.nonterm aux ∉ s →
        ∀ n, n ≤ N → ∀ w, DerivesN g' n s (TermStr w) →
        Derives g s (TermStr w) := by
      intro s
      induction s with
      | nil =>
        intro _ n _ w hder
        have hder' : DerivesN g' n (TermStr []) (TermStr w) := hder
        have hw : w = [] := termStr_inj (derivesN_termStr hder').1
        rw [hw]
        exact Derives.refl _
      | cons σ s' ihs =>
        intro hauxs n hn w hder
        have hder' : DerivesN g' n ([σ] ++ s') (TermStr w) := hder
        rcases derivesN_split hder' [σ] s' w rfl rfl with
          ⟨n₁, n₂, w₁, w₂, hsum, hw, d₁, d₂⟩
        have haux' : Symbol.nonterm aux ∉ s' :=
          fun h => hauxs (List.mem_cons_of_mem _ h)
        have hd₂ : Derives g s' (TermStr w₂) := ihs haux' n₂ (by omega) w₂ d₂
        have hd₁ : Derives g [σ] (TermStr w₁) := by
          cases σ with
          | term a =>
            have d₁' : DerivesN g' n₁ (TermStr [a]) (TermStr w₁) := d₁
            have hw1 : w₁ = [a] := termStr_inj (derivesN_termStr d₁').1
            rw [hw1]
            exact Derives.refl _
          | nonterm m =>
            by_cases hm : m = nt
            · subst hm
              exact hI n₁ (by omega) w₁ d₁
            · have hmaux : m ≠ aux := by
                intro e
                exact hauxs (by rw [e]; exact List.mem_cons_self _ _)
              rcases derivesN_nonterm_inv d₁ with
                ⟨q, hqg', hqm, n₁', hn₁, hderq⟩
              rcases (H3 q).mp hqg' with ⟨hqg, _⟩ | ⟨p, hpg, hpnt, hph, rfl⟩ |
                ⟨p, hpg, hpnt, hph, rfl⟩ | rfl
              · have hqaux : Symbol.nonterm aux ∉ q.syms := (H2 q hqg).2
                have hdq : Derives g q.syms (TermStr w₁) :=
                  (ihN n₁' (by omega)).2.2 n₁' le_rfl q.syms hqaux w₁ hderq
                refine Derives.head ?_ hdq
                have hsp := step_production hqg
                rw [hqm] at hsp
                exact hsp
              · exact absurd hqm.symm hm
              · exact absurd hqm.symm hmaux
              · exact absurd hqm.symm hmaux
        rw [hw, termStr_append]
        exact Derives.append_both hd₁ hd₂
    exact ⟨hI, hII, fun n hn s hs w hder => hIII s hs n hn w hder⟩

theorem rlr_step_lang (g g' : Context) (nt aux : Nonterm)
    (H1 : aux ≠ nt)
    (H2 : ∀ p ∈ g.prodList, p.nt ≠ aux ∧ Symbol.nonterm aux ∉ p.syms)
    (H3 : ∀ q, q ∈ g'.prodList ↔
      (q ∈ g.prodList ∧ q.nt ≠ nt) ∨
      (∃ p ∈ g.prodList, p.nt = nt ∧
        p.syms.head? ≠ some (Symbol.nonterm nt) ∧
        q = ⟨nt, p.syms ++ [Symbol.nonterm aux]⟩) ∨
      (∃ p ∈ g.prodList, p.nt = nt ∧
        p.syms.head? = some (Symbol.nonterm nt) ∧
        q = ⟨aux, p.syms.drop 1 ++ [Symbol.nonterm aux]⟩) ∨
      q = ⟨aux, []⟩)
    (m : Nonterm) (hm : m ≠ aux) (w : List Term) :
    LangMem g' m w ↔ LangMem g m w := by
  have hauxfree : Symbol.nonterm aux ∉ [Symbol.nonterm m] := by
    intro h
    have he := List.mem_singleton.mp h
    injection he with he
    exact hm he.symm
  constructor
  · intro h
    have h' : ∃ n, DerivesN g' n [Symbol.nonterm m] (TermStr w) := h
    obtain ⟨n, hder⟩ := h'
    by_cases hmnt : m = nt
    · subst hmnt
      exact (sim_bwd g g' m aux H1 H2 H3 n).1 n le_rfl w hder
    · exact (sim_bwd g g' nt aux H1 H2 H3 n).2.2 n le_rfl
        [Symbol.nonterm m] hauxfree w hder
  · intro h
    have h' : ∃ n, DerivesN g n [Symbol.nonterm m] (TermStr w) := h
    obtain ⟨n, hder⟩ := h'
    exact (sim_fwd g g' nt aux H1 H2 H3 n).2 n le_rfl
      [Symbol.nonterm m] hauxfree w hder

theorem rlr_fold_lang :
    ∀ (es : List (Nonterm × List Production)) (g : Context),
      g.prodList.Nodup →
      (∀ p ∈ g.prodList, anonBelow p.nt g.counter = true ∧
        ∀ s ∈ p.syms, anonBelowSym s g.counter = true) →
      (∀ e ∈ es, anonBelow e.1 g.counter = true ∧
        ∀ p, p ∈ e.2 ↔ p ∈ g.prodList ∧
          p.syms.head? = some (Symbol.nonterm p.nt) ∧ p.nt = e.1) →
      (es.map Prod.fst).Nodup →
      ∀ m, anonBelow m g.counter = true →
      ∀ w, (LangMem (es.foldl rlrStep g) m w ↔ LangMem g m w) := by
  intro es
  induction es with
  | nil => exact fun g _ _ _ _ m _ w => Iff.rfl
  | cons e rest ih =>
    rcases e with ⟨nt, lr⟩
    intro g hnd hfr hE hK m hm w
    have hEh := hE (nt, lr) (List.mem_cons_self _ _)
    have hlr : ∀ p, p ∈ lr ↔ p ∈ g.prodList ∧
        p.syms.head? = some (Symbol.nonterm p.nt) ∧ p.nt = nt := hEh.2
    have hnt : anonBelow nt g.counter = true := hEh.1
    obtain ⟨hcnt', hnd', hmem'⟩ := rlrStep_char g nt lr hnd hfr hlr hnt
    rw [List.foldl_cons]
    set g' := rlrStep g (nt, lr) with hg'
    have hntaux : nt ≠ Nonterm.anon g.counter := anonBelow_ne hnt
    have H1 : Nonterm.anon g.counter ≠ nt := fun e => hntaux e.symm
    have H2 : ∀ p ∈ g.prodList, p.nt ≠ Nonterm.anon g.counter ∧
        Symbol.nonterm (Nonterm.anon g.counter) ∉ p.syms :=
      fun p hp => ⟨anonBelow_ne (hfr p hp).1,
        fun hs => anonBelowSym_ne ((hfr p hp).2 _ hs) rfl⟩
    have H3 : ∀ q, q ∈ g'.prodList ↔
        (q ∈ g.prodList ∧ q.nt ≠ nt) ∨
        (∃ p ∈ g.prodList, p.nt = nt ∧
          p.syms.head? ≠ some (Symbol.nonterm nt) ∧
          q = ⟨nt, p.syms ++ [Symbol.nonterm (Nonterm.anon g.counter)]⟩) ∨
        (∃ p ∈ g.prodList, p.nt = nt ∧
          p.syms.head? = some (Symbol.nonterm nt) ∧
          q = ⟨Nonterm.anon g.counter,
            p.syms.drop 1 ++ [Symbol.nonterm (Nonterm.anon g.counter)]⟩) ∨
        q = ⟨Nonterm.anon g.counter, []⟩ := by
      intro q
      rw [hmem' q]
      constructor
      · rintro (h | h | ⟨p, hp, rfl⟩ | h)
        · exact Or.inl h
        · exact Or.inr (Or.inl h)
        · rcases (hlr p).mp hp with ⟨hpg, hph, hpnt⟩
          exact Or.inr (Or.inr (Or.inl ⟨p, hpg, hpnt,
            by rw [← hpnt]; exact hph, rfl⟩))
        · exact Or.inr (Or.inr (Or.inr h))
      · rintro (h | h | ⟨p, hpg, hpnt, hph, rfl⟩ | h)
        · exact Or.inl h
        · exact Or.inr (Or.inl h)
        · exact Or.inr (Or.inr (Or.inl ⟨p,
            (hlr p).mpr ⟨hpg, by rw [hpnt]; exact hph, hpnt⟩, rfl⟩))
        · exact Or.inr (Or.inr (Or.inr h))
    have hstep_lang : LangMem g' m w ↔ LangMem g m w :=
      rlr_step_lang g g' nt (Nonterm.anon g.counter) H1 H2 H3 m
        (anonBelow_ne hm) w
    have hF' : ∀ p ∈ g'.prodList, anonBelow p.nt g'.counter = true ∧
        ∀ s ∈ p.syms, anonBelowSym s g'.counter = true := by
      intro p hp
      rw [hcnt']
      rcases (hmem' p).mp hp with ⟨hpg, _⟩ | ⟨q, hq, _, _, rfl⟩ |
        ⟨q, hq, rfl⟩ | rfl
      · exact ⟨anonBelow_mono (hfr p hpg).1,
          fun s hs => anonBelowSym_mono ((hfr p hpg).2 s hs)⟩
      · refine ⟨anonBelow_mono hnt, fun s hs => ?_⟩
        rcases List.mem_append.mp hs with hs | hs
        · exact anonBelowSym_mono ((hfr q hq).2 s hs)
        · rw [List.mem_singleton.mp hs]
          exact decide_eq_true (Nat.lt_succ_self _)
      · have hqg : q ∈ g.prodList := ((hlr q).mp hq).1
        refine ⟨decide_eq_true (Nat.lt_succ_self _), fun s hs => ?_⟩
        rcases List.mem_append.mp hs with hs | hs
        · exact anonBelowSym_mono ((hfr q hqg).2 s (List.mem_of_mem_drop hs))
        · rw [List.mem_singleton.mp hs]
          exact decide_eq_true (Nat.lt_succ_self _)
      · exact ⟨decide_eq_true (Nat.lt_succ_self _), by intro s hs; cases hs⟩
    have hE' : ∀ e ∈ rest, anonBelow e.1 g'.counter = true ∧
        ∀ p, p ∈ e.2 ↔ p ∈ g'.prodList ∧
          p.syms.head? = some (Symbol.nonterm p.nt) ∧ p.nt = e.1 := by
      intro e' he'
      have hEr := hE e' (List.mem_cons_of_mem _ he')
      have hne : e'.1 ≠ nt := by
        intro he
        rw [List.map_cons] at hK
        have hmem : e'.1 ∈ rest.map Prod.fst := List.mem_map_of_mem Prod.fst he'
        rw [he] at hmem
        exact (List.nodup_cons.mp hK).1 hmem
      have hneaux : e'.1 ≠ Nonterm.anon g.counter := anonBelow_ne hEr.1
      refine ⟨by rw [hcnt']; exact anonBelow_mono hEr.1, fun p => ?_⟩
      rw [hEr.2 p]
      constructor
      · rintro ⟨hpg, hph, hpnt⟩
        exact ⟨(hmem' p).mpr (Or.inl ⟨hpg, by rw [hpnt]; exact hne⟩), hph, hpnt⟩
      · rintro ⟨hpg', hph, hpnt⟩
        rcases (hmem' p).mp hpg' with ⟨hpg, _⟩ | ⟨q, _, _, _, rfl⟩ |
          ⟨q, _, rfl⟩ | rfl
        · exact ⟨hpg, hph, hpnt⟩
        · exact absurd hpnt.symm hne
        · exact absurd hpnt.symm hneaux
        · exact absurd hpnt.symm hneaux
    have hK' : (rest.map Prod.fst).Nodup := by
      rw [List.map_cons] at hK
      exact (List.nodup_cons.mp hK).2
    have hm' : anonBelow m g'.counter = true := by
      rw [hcnt']
      exact anonBelow_mono hm
    rw [ih g' hnd' hF' hE' hK' m hm' w, hstep_lang]

/-- C1: for every well-formed input grammar (duplicate-free, counter-fresh)
and every nonterminal `nt` rewritten by `remove_left_recursion` (a
nonterminal with at least one immediately left-recursive production), the set
of terminal strings derivable from `nt` after the transform is identical to
the set derivable from `nt` before it. -/
theorem c1_language_preservation (ctx : Context)
    (hnd : ctx.prodList.Nodup) (hF : ctx.Fresh)
    (nt : Nonterm) (hnt : nt ∈ rewrittenNonterms ctx) (w : List Term) :
    LangMem (remove_left_recursion ctx) nt w ↔ LangMem ctx nt w := by
  have hbelow : anonBelow nt ctx.counter = true := by
    rcases List.mem_map.mp hnt with ⟨e, he, rfl⟩
    rcases mem_recEntries.mp he with ⟨hk, _, _⟩
    rcases mem_keys.mp hk with ⟨p, hp, hpnt⟩
    exact hpnt ▸ (hF p hp).1
  unfold remove_left_recursion
  refine rlr_fold_lang (recEntries ctx) ctx hnd hF ?_
    (recEntries_fst_nodup ctx) nt hbelow w
  intro e he
  rcases mem_recEntries.mp he with ⟨hk, hrep, _⟩
  constructor
  · rcases mem_keys.mp hk with ⟨p, hp, hpnt⟩
    exact hpnt ▸ (hF p hp).1
  · intro p
    rw [hrep, mem_leftRecProds]

/-- C1 witness: the preservation equivalence at the scenario grammar, for
the string consisting of one `"id"` token. -/
theorem c1_language_preservation_witness :
    ctxScenario.prodList.Nodup ∧ ctxScenario.Fresh ∧
    ntS ∈ rewrittenNonterms ctxScenario ∧
    (LangMem (remove_left_recursion ctxScenario) ntS [1] ↔
      LangMem ctxScenario ntS [1]) :=
  ⟨by decide, by decide, by decide,
   c1_language_preservation ctxScenario (by decide) (by decide) ntS
     (by decide) [1]⟩

/-- C9 witness: the characterization at the grammar `S → "id"`. -/
theorem c9_expansion_characterizes_witness :
    expandLoop ctxSid 3 [[Symbol.nonterm ntS]] [] = some [[Symbol.term 1]] ∧
    (([[Symbol.term 1]] : List SymSeq).Nodup ∧
      ([Symbol.term 1] ∈ ([[Symbol.term 1]] : List SymSeq) ↔
        (∃ l ∈ [[Symbol.nonterm ntS]], ExpReach ctxSid l [Symbol.term 1]) ∧
        headTerm [Symbol.term 1] = true)) :=
  ⟨by decide,
   c9_expansion_characterizes ctxSid 3 [[Symbol.nonterm ntS]]
     [[Symbol.term 1]] (by decide) [Symbol.term 1]⟩

end Moore
